import Mathlib

/-
Verification of the core of the 2048 board implementation (src/2048game.py).
A tile is represented by its integer value; a grid cell is an
`Option Nat` where `none` is an empty cell.  The randomness used by
`spawn` (position choice and the 10 percent chance of a 4) is passed in
explicitly, and the result value of `spawn` models the Python return
value (`some false` for the explicit `return False`, `none` for falling
off the end of the function).
-/

namespace Game2048

/-- A position or direction vector, as in the source tuples of two ints. -/
abbrev Vec := Int × Int

/-- Model of Tile.merge: when the two values are equal the first doubles and
the call reports success; otherwise both are unchanged.  Returns the first
value after the call together with the success flag. -/
def tileMerge (self other : Nat) : Nat × Bool :=
  if self = other then (self * 2, true) else (self, false)

/-- Model of the helper _move_position. -/
def movePosition (position direction : Vec) : Vec :=
  (position.1 + direction.1, position.2 + direction.2)

/-- Model of class Board: width, height, and the grid of optional tiles. -/
structure Board where
  width : Nat
  height : Nat
  grid : List (List (Option Nat))
deriving DecidableEq, Repr

/-- Model of Board.__init__: the grid is built as `height` inner lists of
`width` cells each (in the source, `[[None for i in range(width)] for j in
range(height)]`). -/
def Board.build (width height : Nat) : Board :=
  ⟨width, height, List.replicate height (List.replicate width none)⟩

/-- Model of Board._is_valid. -/
def isValid (b : Board) (p : Vec) : Prop :=
  0 ≤ p.1 ∧ p.1 < (b.width : Int) ∧ 0 ≤ p.2 ∧ p.2 < (b.height : Int)

instance (b : Board) (p : Vec) : Decidable (isValid b p) := by
  unfold isValid; infer_instance

/-- Model of Board._find_starts. -/
def findStarts (b : Board) (direction : Vec) : List Vec :=
  let side : Vec := (max 0 (direction.1 * ((b.width : Int) - 1)),
                     max 0 (direction.2 * ((b.height : Int) - 1)))
  if direction.1 = 0 then
    (List.range b.width).map (fun (x : Nat) => ((x : Int), side.2))
  else if direction.2 = 0 then
    (List.range b.height).map (fun (y : Nat) => (side.1, (y : Int)))
  else []

/-- Total model of the access `self.board[p.1][p.2]` (Board._get).  The
embedded algorithms only use it at positions the source guards as valid,
where it agrees with the list access. -/
def getCell (b : Board) (p : Vec) : Option Nat :=
  (b.grid.getD p.1.toNat []).getD p.2.toNat none

/-- Model of the update `self.board[p.1][p.2] = t` (Board._set). -/
def setCell (b : Board) (p : Vec) (t : Option Nat) : Board :=
  { b with grid := b.grid.set p.1.toNat ((b.grid.getD p.1.toNat []).set p.2.toNat t) }

/-- Exception-aware model of the access `self.board[p.1][p.2]`: the result
is `none` when either list index is out of range (an IndexError in the
source), and `some c` when the access lands on an actual cell `c`. -/
def rawGet (b : Board) (p : Vec) : Option (Option Nat) :=
  match b.grid.get? p.1.toNat with
  | none => none
  | some row => row.get? p.2.toNat

/-- All grid positions, in the scan order of the source (x outer, y inner). -/
def allCells (b : Board) : List Vec :=
  (List.range b.width).flatMap
    (fun (x : Nat) => (List.range b.height).map (fun (y : Nat) => ((x : Int), (y : Int))))

/-- Shape under which the access `board[x][y]` is in bounds for every
position accepted by _is_valid: `width` outer lists of `height` cells each.
A square board built by Board.build has this shape. -/
def WF (b : Board) : Prop :=
  b.grid.length = b.width ∧ ∀ row ∈ b.grid, row.length = b.height

instance (b : Board) : Decidable (WF b) := by
  unfold WF; infer_instance

/-- The four legal unit directions of the spec: up, down, left, right. -/
def UnitDir (d : Vec) : Prop :=
  d = (0, -1) ∨ d = (0, 1) ∨ d = (-1, 0) ∨ d = (1, 0)

instance (d : Vec) : Decidable (UnitDir d) := by
  unfold UnitDir; infer_instance

/-- The inner while loop of Board._compact: slide the tile at `curr` one
cell at a time along `direction` while the adjacent cell is valid and
empty.  Returns the new board and whether at least one step was taken. -/
def slideFrom (b : Board) (curr direction : Vec) : Nat → Board × Bool
  | 0 => (b, false)
  | fuel + 1 =>
    let next := movePosition curr direction
    if isValid b next ∧ getCell b next = none then
      let b1 := setCell (setCell b next (getCell b curr)) curr none
      ((slideFrom b1 next direction fuel).1, true)
    else (b, false)

/-- One pass of Board._compact over the whole grid (the double loop over x
and y): every occupied cell is slid as far as possible along `direction`. -/
def gridPass (b : Board) (direction : Vec) : Board × Bool :=
  (allCells b).foldl
    (fun bc p =>
      if getCell bc.1 p = none then bc
      else
        let r := slideFrom bc.1 p direction (bc.1.width + bc.1.height)
        (r.1, bc.2 || r.2))
    (b, false)

/-- Model of Board._compact: `max width height` passes over the grid, with
a flag that is true as soon as any tile has moved in any pass. -/
def compact (b : Board) (direction : Vec) : Board × Bool :=
  (List.range (max b.width b.height)).foldl
    (fun bc _ =>
      let r := gridPass bc.1 direction
      (r.1, bc.2 || r.2))
    (b, false)

/-- Model of Board.spawn.  `rc` selects the empty cell (random.choice) and
`rf` tells whether the value-4 branch is taken (random.random() < 0.1).
The second component is the Python return value: `some false` for the
explicit `return False` on a full board, `none` for falling off the end
after a placement. -/
def spawnWith (b : Board) (rc : Nat) (rf : Bool) : Board × Option Bool :=
  let options := (allCells b).filter (fun p => (getCell b p).isNone)
  if options.length = 0 then (b, some false)
  else
    let p := options.getD (rc % options.length) (0, 0)
    let b1 := setCell b p (some 2)
    let b2 := if rf then setCell b1 p (some 4) else b1
    (b2, none)

/-- The merge walk of Board.move along one line: compare the tile at `curr`
with the one at `next = curr + inverse`; skip empty cells, merge equal
pairs (the first tile doubles, the second cell is cleared, the change flag
is set), and always advance one step. -/
def walkLine (b : Board) (curr inverse : Vec) (changed : Bool) : Nat → Board × Bool
  | 0 => (b, changed)
  | fuel + 1 =>
    let next := movePosition curr inverse
    if isValid b next then
      match getCell b curr, getCell b next with
      | some v, some w =>
        let m := tileMerge v w
        if m.2 then
          walkLine (setCell (setCell b curr (some m.1)) next none) next inverse true fuel
        else walkLine b next inverse changed fuel
      | _, _ => walkLine b next inverse changed fuel
    else (b, changed)

/-- The merge pass of Board.move: walk every line from its start cell
toward the inverse of the move direction. -/
def mergePhase (b : Board) (direction : Vec) (changed : Bool) : Board × Bool :=
  (findStarts b direction).foldl
    (fun bc s => walkLine bc.1 s (-direction.1, -direction.2) bc.2 (bc.1.width + bc.1.height))
    (b, changed)

/-- Board.move up to, and not including, the conditional spawn: compact,
merge pass, compact again, with the accumulated change flag. -/
def moveNoSpawn (b : Board) (direction : Vec) : Board × Bool :=
  let c1 := compact b direction
  let m := mergePhase c1.1 direction c1.2
  let c2 := compact m.1 direction
  (c2.1, c2.2 || m.2)

/-- Model of Board.move: when any phase changed something, spawn once with
the given randomness. -/
def moveWith (b : Board) (direction : Vec) (rc : Nat) (rf : Bool) : Board :=
  let r := moveNoSpawn b direction
  if r.2 then (spawnWith r.1 rc rf).1 else r.1

/-- The four neighbor directions scanned by check_game_over, source order. -/
def neighborDirs : List Vec := [(0, 1), (1, 0), (0, -1), (-1, 0)]

/-- Model of Board.check_game_over exactly as written: every reference in
the body is to the module-level variable `board` (here `globalBoard`); the
receiver of the call is never consulted. -/
def checkGameOver (globalBoard : Board) (_self : Board) : Bool :=
  (allCells globalBoard).all (fun p =>
    match getCell globalBoard p with
    | none => false
    | some v =>
      neighborDirs.all (fun d =>
        let next := movePosition p d
        if isValid globalBoard next then
          match getCell globalBoard next with
          | none => false
          | some w => decide (v ≠ w)
        else true))

/-- The game-over property of the spec, stated of a board itself: every
cell is occupied and no occupied cell has an orthogonal, bounds-checked
neighbor that is empty or holds an equal value.  The quantification runs
over allCells, the list of exactly the valid positions. -/
def gameOverSpec (b : Board) : Prop :=
  (∀ p ∈ allCells b, getCell b p ≠ none) ∧
  (∀ p ∈ allCells b, ∀ v, getCell b p = some v →
    ∀ d ∈ neighborDirs, isValid b (movePosition p d) →
      getCell b (movePosition p d) ≠ none ∧ getCell b (movePosition p d) ≠ some v)

instance (b : Board) : Decidable (gameOverSpec b) := by
  unfold gameOverSpec; infer_instance

/-- Model of Board.check_win: iterate directly over the grid lists looking
for a tile of value exactly 2048. -/
def checkWin (b : Board) : Bool :=
  b.grid.any (fun row => row.any (fun t => decide (t = some 2048)))

/-- The number of occupied cells of a board. -/
def countTiles (b : Board) : Nat :=
  ((allCells b).filter (fun p => (getCell b p).isSome)).length

/- Concrete boards used by the claim instances below. -/

/-- A 4 by 4 empty board. -/
def board44 : Board := Board.build 4 4

/-- A board whose only tile has value 4096. -/
def board4096 : Board := ⟨1, 1, [[some 4096]]⟩

/-- A full 1 by 1 board: game over holds for it. -/
def stuckBoard : Board := ⟨1, 1, [[some 2]]⟩

/-- An empty 1 by 1 board. -/
def emptyBoard11 : Board := Board.build 1 1

/-- A 2 by 2 board with a single tile of value 2 at position (0, 0). -/
def boardDiag : Board := ⟨2, 2, [[some 2, none], [none, none]]⟩

/-- A 4-wide, 1-high board holding the row [2, 2, 2, 2]. -/
def row2222 : Board := ⟨4, 1, [[some 2], [some 2], [some 2], [some 2]]⟩

/- Claim theorems for the directly decidable claims. -/

/-- Claim C10: Board.__init__ allocates `height` inner lists of `width`
cells, while the accessors index `board[x][y]` with x below width and y
below height, exactly the positions _is_valid accepts; hence the raw list
access is in bounds at every valid position precisely when the board is
square. -/
theorem c10_grid_layout_mismatch (w h : Nat) (hw : 0 < w) (hh : 0 < h) :
    (Board.build w h).grid.length = h ∧
    (∀ row ∈ (Board.build w h).grid, row.length = w) ∧
    ((∀ p, isValid (Board.build w h) p → rawGet (Board.build w h) p ≠ none) ↔ w = h) := by
  refine ⟨by simp [Board.build], fun row hr => ?_, ?_⟩
  · simp only [Board.build] at hr
    rcases List.eq_of_mem_replicate hr with rfl
    simp
  · constructor
    · intro hall
      by_contra hne
      rcases Nat.lt_or_ge w h with hlt | hge
      · have hv : isValid (Board.build w h) ((0 : Int), (w : Int)) := by
          refine ⟨le_refl _, ?_, ?_, ?_⟩ <;> simp [Board.build]
          · exact_mod_cast hw
          · exact_mod_cast hlt
        have := hall _ hv
        apply this
        simp [rawGet, Board.build, List.getElem?_replicate, hh]
      · have hlt : h < w := lt_of_le_of_ne hge (fun e => hne e.symm)
        have hv : isValid (Board.build w h) ((h : Int), (0 : Int)) := by
          refine ⟨by positivity, ?_, le_refl _, ?_⟩ <;> simp [Board.build]
          · exact_mod_cast hlt
          · exact_mod_cast hh
        have := hall _ hv
        apply this
        simp [rawGet, Board.build, List.getElem?_replicate]
    · rintro rfl
      intro p hv
      obtain ⟨h1, h2, h3, h4⟩ := hv
      have hx : p.1.toNat < w := by
        simp [Board.build] at h2
        omega
      have hy : p.2.toNat < w := by
        simp [Board.build] at h4
        omega
      simp [rawGet, Board.build, List.getElem?_replicate, hx, hy]

/-- Witness for c10_grid_layout_mismatch at the concrete sizes 2 and 3. -/
theorem c10_grid_layout_mismatch_witness :
    (Board.build 2 3).grid.length = 3 ∧
    (∀ row ∈ (Board.build 2 3).grid, row.length = 2) ∧
    ((∀ p, isValid (Board.build 2 3) p → rawGet (Board.build 2 3) p ≠ none) ↔ 2 = 3) :=
  c10_grid_layout_mismatch 2 3 (by decide) (by decide)

/-- Claim C8, counterexample: a board whose only tile has value 4096 has a
cell of value at least 2048, yet check_win returns false. -/
theorem c8_counterexample :
    (∃ row ∈ board4096.grid, ∃ t ∈ row, ∃ v, t = some v ∧ 2048 ≤ v) ∧
    checkWin board4096 = false := by
  refine ⟨⟨[some 4096], by simp [board4096], some 4096, by simp, 4096, rfl, by norm_num⟩, by decide⟩

/-- Claim C8, amended: check_win is true iff some cell holds the value
exactly 2048; in particular a grid with a single 2048 cell makes it true
and a grid whose maximum value is 1024 makes it false. -/
theorem c8_check_win_exact :
    (∀ b : Board, checkWin b = true ↔ ∃ row ∈ b.grid, some 2048 ∈ row) ∧
    checkWin ⟨2, 2, [[some 2048, none], [none, none]]⟩ = true ∧
    checkWin ⟨2, 2, [[some 1024, some 512], [some 256, some 1024]]⟩ = false := by
  refine ⟨fun b => ?_, by decide, by decide⟩
  simp [checkWin, List.any_eq_true]

/-- Claim C7, counterexample: on a 4 by 4 board with direction left, the
start cells computed by _find_starts form the leftmost column, not the
rightmost column. -/
theorem c7_counterexample :
    findStarts board44 (-1, 0) = [(0, 0), (0, 1), (0, 2), (0, 3)] ∧
    findStarts board44 (-1, 0) ≠ [(3, 0), (3, 1), (3, 2), (3, 3)] := by
  constructor <;> decide

/-- Claim C7, amended: for each of the four unit directions the start cells
are the line of cells adjacent to the edge the direction points toward (for
left the leftmost column, for right the rightmost column, for up the top
row, for down the bottom row); the walk then proceeds toward the inverse
direction. -/
theorem c7_find_starts_edges (b : Board) (hw : 0 < b.width) (hh : 0 < b.height) :
    findStarts b (-1, 0) = (List.range b.height).map (fun (y : Nat) => ((0 : Int), (y : Int))) ∧
    findStarts b (1, 0) = (List.range b.height).map (fun (y : Nat) => ((b.width : Int) - 1, (y : Int))) ∧
    findStarts b (0, -1) = (List.range b.width).map (fun (x : Nat) => ((x : Int), (0 : Int))) ∧
    findStarts b (0, 1) = (List.range b.width).map (fun (x : Nat) => ((x : Int), (b.height : Int) - 1)) := by
  refine ⟨?_, ?_, ?_, ?_⟩ <;>
    (simp only [findStarts]; norm_num; try omega)

/-- Witness for c7_find_starts_edges at the concrete 4 by 4 board. -/
theorem c7_find_starts_edges_witness :
    findStarts board44 (-1, 0) = (List.range board44.height).map (fun (y : Nat) => ((0 : Int), (y : Int))) ∧
    findStarts board44 (1, 0) = (List.range board44.height).map (fun (y : Nat) => ((board44.width : Int) - 1, (y : Int))) ∧
    findStarts board44 (0, -1) = (List.range board44.width).map (fun (x : Nat) => ((x : Int), (0 : Int))) ∧
    findStarts board44 (0, 1) = (List.range board44.width).map (fun (x : Nat) => ((x : Int), (board44.height : Int) - 1)) :=
  c7_find_starts_edges board44 (by decide) (by decide)

/-- Claim C9, counterexample: the guard against non-unit directions is
commented out in the source, so move with the diagonal direction (1, 1)
neither rejects nor acts as a no-op: it changes the grid. -/
theorem c9_counterexample :
    moveWith boardDiag (1, 1) 0 false ≠ boardDiag := by
  decide

/-- Claim C9, amended: a direction outside the four unit vectors is not
rejected; the compact step slides tiles along the given vector, so the grid
can change and a spawn can follow.  On a 2 by 2 board with a lone 2 at
position (0, 0), direction (1, 1) slides the tile to (1, 1) and the spawn
then places a fresh 2 at (0, 0). -/
theorem c9_diagonal_slides :
    moveWith boardDiag (1, 1) 0 false = ⟨2, 2, [[some 2, none], [none, some 2]]⟩ := by
  decide

/-- Claim C2: check_game_over reads the module-level board rather than the
receiver.  With the module-level board empty and the receiver a full stuck
board, the call returns false although the game-over property of the spec
holds for the receiver; it computes the property of the module-level board
instead. -/
theorem c2_global_board_bug :
    checkGameOver emptyBoard11 stuckBoard = false ∧
    gameOverSpec stuckBoard ∧
    checkGameOver stuckBoard stuckBoard = true ∧
    ¬ gameOverSpec emptyBoard11 := by
  refine ⟨by decide, by decide, by decide, by decide⟩

/-- Claim C4: on a board with an empty cell, spawn places exactly one new
tile on that empty cell but falls off the end of the function, so its
return value is the model of Python None rather than True; on a full board
it returns False and is a no-op. -/
theorem c4_spawn_return_bug :
    (spawnWith emptyBoard11 0 false).2 = none ∧
    (spawnWith emptyBoard11 0 false).2 ≠ some true ∧
    (spawnWith emptyBoard11 0 false).1 = ⟨1, 1, [[some 2]]⟩ ∧
    (spawnWith emptyBoard11 4 true).1 = ⟨1, 1, [[some 4]]⟩ ∧
    (spawnWith stuckBoard 3 true).2 = some false ∧
    (spawnWith stuckBoard 3 true).1 = stuckBoard := by
  refine ⟨by decide, by decide, by decide, by decide, by decide, by decide⟩

/- Basic list lemmas used by the cell access development. -/

theorem getD_set_self {α : Type} (l : List α) (i : Nat) (a d : α) (h : i < l.length) :
    (l.set i a).getD i d = a := by
  induction l generalizing i with
  | nil => simp at h
  | cons x xs ih =>
    cases i with
    | zero => simp
    | succ n =>
      simp only [List.set_cons_succ, List.getD_cons_succ]
      exact ih n (by simpa using h)

theorem getD_set_other {α : Type} (l : List α) (i j : Nat) (a d : α) (h : i ≠ j) :
    (l.set i a).getD j d = l.getD j d := by
  induction l generalizing i j with
  | nil => simp
  | cons x xs ih =>
    cases i with
    | zero =>
      cases j with
      | zero => exact absurd rfl h
      | succ m => simp
    | succ n =>
      cases j with
      | zero => simp
      | succ m =>
        simp only [List.set_cons_succ, List.getD_cons_succ]
        exact ih n m (by omega)

theorem set_of_length_le {α : Type} (l : List α) (i : Nat) (a : α) (h : l.length ≤ i) :
    l.set i a = l := by
  induction l generalizing i with
  | nil => simp
  | cons x xs ih =>
    cases i with
    | zero => simp at h
    | succ n => simp only [List.set_cons_succ]; rw [ih n (by simpa using h)]

/-- Fold a preserved property over List.foldl. -/
theorem foldl_preserve {α β : Type} (f : β → α → β) (L : List α) (init : β)
    (P : β → Prop) (hinit : P init)
    (hstep : ∀ acc a, a ∈ L → P acc → P (f acc a)) : P (L.foldl f init) := by
  induction L generalizing init with
  | nil => exact hinit
  | cons x xs ih =>
    exact ih (f init x) (hstep init x (by simp) hinit)
      (fun acc a ha hp => hstep acc a (by simp [ha]) hp)

theorem countP_congr_mem {α : Type} (L : List α) (f g : α → Bool)
    (h : ∀ a ∈ L, f a = g a) : L.countP f = L.countP g := by
  induction L with
  | nil => rfl
  | cons x xs ih =>
    rw [List.countP_cons, List.countP_cons, h x (by simp),
      ih (fun a ha => h a (by simp [ha]))]

/-- Counting with two predicates that agree everywhere but at one list
element of a duplicate-free list. -/
theorem countP_pointwise {α : Type} [DecidableEq α] (L : List α) (hN : L.Nodup)
    (q : α) (hq : q ∈ L) (f g : α → Bool)
    (h : ∀ p ∈ L, p ≠ q → f p = g p) :
    L.countP f + (if g q then 1 else 0) = L.countP g + (if f q then 1 else 0) := by
  have hperm := List.perm_cons_erase hq
  rw [hperm.countP_eq f, hperm.countP_eq g, List.countP_cons, List.countP_cons]
  have heq : (L.erase q).countP f = (L.erase q).countP g := by
    apply countP_congr_mem
    intro a ha
    have hmem := (hN.mem_erase_iff.mp ha)
    exact h a hmem.2 hmem.1
  omega

/- Facts about allCells. -/

theorem mem_allCells (b : Board) (p : Vec) : p ∈ allCells b ↔ isValid b p := by
  unfold allCells isValid
  simp only [List.mem_flatMap, List.mem_map, List.mem_range]
  constructor
  · rintro ⟨x, hx, y, hy, rfl⟩
    dsimp only
    refine ⟨by positivity, by exact_mod_cast hx, by positivity, by exact_mod_cast hy⟩
  · rintro ⟨h1, h2, h3, h4⟩
    refine ⟨p.1.toNat, by omega, p.2.toNat, by omega, ?_⟩
    obtain ⟨a, c⟩ := p
    simp only at h1 h3 ⊢
    rw [Int.toNat_of_nonneg h1, Int.toNat_of_nonneg h3]

theorem allCells_nodup (b : Board) : (allCells b).Nodup := by
  unfold allCells
  have key : ∀ xs : List Nat, xs.Nodup →
      (xs.flatMap (fun (x : Nat) =>
        (List.range b.height).map (fun (y : Nat) => ((x : Int), (y : Int))))).Nodup := by
    intro xs hxs
    induction xs with
    | nil => simp
    | cons x xs ih =>
      rw [List.flatMap_cons, List.nodup_append]
      rcases List.nodup_cons.mp hxs with ⟨hnotmem, htail⟩
      refine ⟨?_, ih htail, ?_⟩
      · apply List.Nodup.map
        · intro a c hac
          have h2 := congrArg Prod.snd hac
          simpa using h2
        · exact List.nodup_range b.height
      · intro p hp1 hp2
        rcases List.mem_map.mp hp1 with ⟨y, _, rfl⟩
        rcases List.mem_flatMap.mp hp2 with ⟨x2, hx2, hpm⟩
        rcases List.mem_map.mp hpm with ⟨y2, _, he⟩
        have hx : x2 = x := by
          have h2 := congrArg Prod.fst he
          simpa using h2
        subst hx
        exact hnotmem hx2
  exact key _ (List.nodup_range b.width)

theorem length_allCells (b : Board) : (allCells b).length = b.width * b.height := by
  have key : ∀ xs : List Nat, (xs.flatMap (fun (x : Nat) =>
      (List.range b.height).map (fun (y : Nat) => ((x : Int), (y : Int))))).length
      = xs.length * b.height := by
    intro xs
    induction xs with
    | nil => simp
    | cons x xs ih =>
      rw [List.flatMap_cons, List.length_append, ih]
      simp only [List.length_map, List.length_range, List.length_cons]
      ring
  unfold allCells
  simpa using key (List.range b.width)

/- Cell access lemmas. -/

theorem width_setCell (b : Board) (p : Vec) (t : Option Nat) :
    (setCell b p t).width = b.width := rfl

theorem height_setCell (b : Board) (p : Vec) (t : Option Nat) :
    (setCell b p t).height = b.height := rfl

theorem allCells_setCell (b : Board) (p : Vec) (t : Option Nat) :
    allCells (setCell b p t) = allCells b := rfl

theorem isValid_setCell (b : Board) (p q : Vec) (t : Option Nat) :
    isValid (setCell b p t) q ↔ isValid b q := Iff.rfl

theorem getCell_setCell_self (b : Board) (p : Vec) (t : Option Nat)
    (hwf : WF b) (hv : isValid b p) : getCell (setCell b p t) p = t := by
  obtain ⟨h1, h2, h3, h4⟩ := hv
  unfold getCell setCell
  simp only
  have hx : p.1.toNat < b.grid.length := by rw [hwf.1]; omega
  rw [getD_set_self _ _ _ _ hx]
  have hrow : (b.grid.getD p.1.toNat []).length = b.height := by
    apply hwf.2
    have := List.getD_eq_getElem b.grid [] hx
    rw [this]
    exact List.getElem_mem hx
  have hy : p.2.toNat < (b.grid.getD p.1.toNat []).length := by rw [hrow]; omega
  exact getD_set_self _ _ _ _ hy

theorem getCell_setCell_other (b : Board) (q p : Vec) (t : Option Nat)
    (hq1 : 0 ≤ q.1) (hq2 : 0 ≤ q.2) (hp1 : 0 ≤ p.1) (hp2 : 0 ≤ p.2)
    (hne : p ≠ q) : getCell (setCell b q t) p = getCell b p := by
  unfold getCell setCell
  simp only
  by_cases hx : q.1.toNat = p.1.toNat
  · have hq1e : q.1 = p.1 := by omega
    have hy : q.2.toNat ≠ p.2.toNat := by
      have : q.2 ≠ p.2 := by
        intro he
        exact hne (Prod.ext hq1e.symm he.symm)
      omega
    by_cases hlen : q.1.toNat < b.grid.length
    · rw [hx, getD_set_self _ _ _ _ (by omega), getD_set_other _ _ _ _ _ hy]
    · rw [set_of_length_le _ _ _ (by omega)]
  · rw [getD_set_other _ _ _ _ _ hx]

theorem WF_setCell (b : Board) (p : Vec) (t : Option Nat) (hwf : WF b) :
    WF (setCell b p t) := by
  by_cases hlen : p.1.toNat < b.grid.length
  · constructor
    · simp [setCell, hwf.1]
    · intro row hrow
      simp only [setCell] at hrow
      rcases List.mem_or_eq_of_mem_set hrow with hmem | rfl
      · exact hwf.2 row hmem
      · rw [height_setCell, List.length_set]
        apply hwf.2
        have := List.getD_eq_getElem b.grid [] hlen
        rw [this]
        exact List.getElem_mem hlen
  · have hset : (setCell b p t).grid = b.grid := by
      simp only [setCell]
      exact set_of_length_le _ _ _ (by omega)
    constructor
    · rw [hset, width_setCell]
      exact hwf.1
    · intro row hrow
      rw [hset] at hrow
      rw [height_setCell]
      exact hwf.2 row hrow

/-- The effect of a single cell write on the number of occupied cells. -/
theorem countTiles_setCell (b : Board) (q : Vec) (v : Option Nat)
    (hwf : WF b) (hq : isValid b q) :
    countTiles (setCell b q v) + (if (getCell b q).isSome then 1 else 0)
      = countTiles b + (if v.isSome then 1 else 0) := by
  unfold countTiles
  rw [allCells_setCell]
  rw [← List.countP_eq_length_filter, ← List.countP_eq_length_filter]
  have := countP_pointwise (allCells b) (allCells_nodup b) q
    ((mem_allCells b q).mpr hq)
    (fun p => (getCell (setCell b q v) p).isSome)
    (fun p => (getCell b p).isSome)
    (fun p hp hne => by
      have hpv := (mem_allCells b p).mp hp
      dsimp only
      rw [getCell_setCell_other b q p v hq.1 hq.2.2.1 hpv.1 hpv.2.2.1 hne])
  dsimp only at this
  rw [getCell_setCell_self b q v hwf hq] at this
  omega

theorem countTiles_le (b : Board) : countTiles b ≤ b.width * b.height := by
  unfold countTiles
  calc ((allCells b).filter _).length ≤ (allCells b).length := List.length_filter_le _ _
    _ = b.width * b.height := length_allCells b

/- Shape and tile count preservation through the phases of a move. -/

theorem movePosition_ne (p d : Vec) (hd : d ≠ (0, 0)) : movePosition p d ≠ p := by
  unfold movePosition
  intro h
  apply hd
  have h1 := congrArg Prod.fst h
  have h2 := congrArg Prod.snd h
  simp only at h1 h2
  have : d.1 = 0 := by omega
  have : d.2 = 0 := by omega
  cases d
  simp_all

theorem isValid_of_dims (b1 b : Board) (p : Vec) (hw : b1.width = b.width)
    (hh : b1.height = b.height) : isValid b1 p ↔ isValid b p := by
  unfold isValid
  rw [hw, hh]

theorem slideFrom_dims (d : Vec) (fuel : Nat) : ∀ (b : Board) (curr : Vec),
    (slideFrom b curr d fuel).1.width = b.width ∧
    (slideFrom b curr d fuel).1.height = b.height := by
  induction fuel with
  | zero => exact fun b curr => ⟨rfl, rfl⟩
  | succ n ih =>
    intro b curr
    simp only [slideFrom]
    split
    · exact ih _ _
    · exact ⟨rfl, rfl⟩

theorem slideFrom_WF (d : Vec) (fuel : Nat) : ∀ (b : Board) (curr : Vec), WF b →
    WF (slideFrom b curr d fuel).1 := by
  induction fuel with
  | zero => exact fun b curr h => h
  | succ n ih =>
    intro b curr hwf
    simp only [slideFrom]
    split
    · exact ih _ _ (WF_setCell _ _ _ (WF_setCell _ _ _ hwf))
    · exact hwf

theorem slideFrom_count (d : Vec) (hd : d ≠ (0, 0)) (fuel : Nat) :
    ∀ (b : Board) (curr : Vec), WF b → isValid b curr →
    countTiles (slideFrom b curr d fuel).1 = countTiles b := by
  induction fuel with
  | zero => exact fun b curr _ _ => rfl
  | succ n ih =>
    intro b curr hwf hcv
    simp only [slideFrom]
    split
    · rename_i hg
      obtain ⟨hnv, hne⟩ := hg
      set next := movePosition curr d with hnext
      have hcurr_ne : curr ≠ next := fun h => movePosition_ne curr d hd h.symm
      have h1 := countTiles_setCell b next (getCell b curr) hwf hnv
      rw [hne] at h1
      simp only [Option.isSome_none, Bool.false_eq_true, if_false] at h1
      set b2 := setCell b next (getCell b curr) with hb2
      have hwf2 : WF b2 := WF_setCell _ _ _ hwf
      have hv2 : isValid b2 curr := by rw [isValid_setCell]; exact hcv
      have h2 := countTiles_setCell b2 curr none hwf2 hv2
      have hgb2 : getCell b2 curr = getCell b curr := by
        rw [hb2]
        exact getCell_setCell_other b next curr _ hnv.1 hnv.2.2.1 hcv.1 hcv.2.2.1 hcurr_ne
      rw [hgb2] at h2
      simp only [Option.isSome_none, Bool.false_eq_true, if_false] at h2
      have hrec := ih (setCell b2 curr none) next
        (WF_setCell _ _ _ hwf2) (by rw [isValid_setCell, isValid_setCell]; exact hnv)
      rw [hrec]
      omega
    · rfl

theorem gridPass_dims (b : Board) (d : Vec) :
    (gridPass b d).1.width = b.width ∧ (gridPass b d).1.height = b.height := by
  unfold gridPass
  refine foldl_preserve _ _ _ (fun (bc : Board × Bool) =>
    bc.1.width = b.width ∧ bc.1.height = b.height) ⟨rfl, rfl⟩ ?_
  intro acc p _ hp
  dsimp only
  split
  · exact hp
  · exact ⟨(slideFrom_dims d _ _ _).1.trans hp.1, (slideFrom_dims d _ _ _).2.trans hp.2⟩

theorem gridPass_WF (b : Board) (d : Vec) (hwf : WF b) : WF (gridPass b d).1 := by
  unfold gridPass
  refine foldl_preserve _ _ _ (fun (bc : Board × Bool) => WF bc.1) hwf ?_
  intro acc p _ hp
  dsimp only
  split
  · exact hp
  · exact slideFrom_WF d _ _ _ hp

theorem gridPass_count (b : Board) (d : Vec) (hd : d ≠ (0, 0)) (hwf : WF b) :
    countTiles (gridPass b d).1 = countTiles b := by
  unfold gridPass
  refine (foldl_preserve _ _ _ (fun (bc : Board × Bool) =>
    bc.1.width = b.width ∧ bc.1.height = b.height ∧
    WF bc.1 ∧ countTiles bc.1 = countTiles b) ⟨rfl, rfl, hwf, rfl⟩ ?_).2.2.2
  intro acc p hmem hp
  dsimp only
  split
  · exact hp
  · refine ⟨(slideFrom_dims d _ _ _).1.trans hp.1, (slideFrom_dims d _ _ _).2.trans hp.2.1,
      slideFrom_WF d _ _ _ hp.2.2.1, ?_⟩
    rw [slideFrom_count d hd _ _ _ hp.2.2.1 ?_, hp.2.2.2]
    rw [isValid_of_dims acc.1 b p hp.1 hp.2.1]
    exact (mem_allCells b p).mp hmem

theorem compact_dims (b : Board) (d : Vec) :
    (compact b d).1.width = b.width ∧ (compact b d).1.height = b.height := by
  unfold compact
  refine foldl_preserve _ _ _ (fun (bc : Board × Bool) =>
    bc.1.width = b.width ∧ bc.1.height = b.height) ⟨rfl, rfl⟩ ?_
  intro acc p _ hp
  exact ⟨(gridPass_dims acc.1 d).1.trans hp.1, (gridPass_dims acc.1 d).2.trans hp.2⟩

theorem compact_WF (b : Board) (d : Vec) (hwf : WF b) : WF (compact b d).1 := by
  unfold compact
  refine foldl_preserve _ _ _ (fun (bc : Board × Bool) => WF bc.1) hwf ?_
  intro acc p _ hp
  exact gridPass_WF acc.1 d hp

theorem compact_count (b : Board) (d : Vec) (hd : d ≠ (0, 0)) (hwf : WF b) :
    countTiles (compact b d).1 = countTiles b := by
  unfold compact
  refine (foldl_preserve _ _ _ (fun (bc : Board × Bool) =>
    WF bc.1 ∧ countTiles bc.1 = countTiles b) ⟨hwf, rfl⟩ ?_).2
  intro acc p _ hp
  exact ⟨gridPass_WF acc.1 d hp.1, (gridPass_count acc.1 d hd hp.1).trans hp.2⟩

theorem walkLine_dims (inv : Vec) (fuel : Nat) : ∀ (b : Board) (curr : Vec) (ch : Bool),
    (walkLine b curr inv ch fuel).1.width = b.width ∧
    (walkLine b curr inv ch fuel).1.height = b.height := by
  induction fuel with
  | zero => exact fun b curr ch => ⟨rfl, rfl⟩
  | succ n ih =>
    intro b curr ch
    simp only [walkLine]
    split
    · split <;> (try split) <;> exact ih _ _ _
    · exact ⟨rfl, rfl⟩

theorem walkLine_WF (inv : Vec) (fuel : Nat) : ∀ (b : Board) (curr : Vec) (ch : Bool),
    WF b → WF (walkLine b curr inv ch fuel).1 := by
  induction fuel with
  | zero => exact fun b curr ch h => h
  | succ n ih =>
    intro b curr ch hwf
    simp only [walkLine]
    split
    · split
      · split
        · exact ih _ _ _ (WF_setCell _ _ _ (WF_setCell _ _ _ hwf))
        · exact ih _ _ _ hwf
      · exact ih _ _ _ hwf
    · exact hwf

theorem walkLine_count (inv : Vec) (hinv : inv ≠ (0, 0)) (fuel : Nat) :
    ∀ (b : Board) (curr : Vec) (ch : Bool), WF b → isValid b curr →
    countTiles (walkLine b curr inv ch fuel).1 ≤ countTiles b := by
  induction fuel with
  | zero => exact fun b curr ch _ _ => le_refl _
  | succ n ih =>
    intro b curr ch hwf hcv
    simp only [walkLine]
    split
    · rename_i hnv
      set next := movePosition curr inv with hnext
      have hcurr_ne : curr ≠ next := fun h => movePosition_ne curr inv hinv h.symm
      split
      · rename_i v w hv hw
        split
        · have h1 := countTiles_setCell b curr (some (tileMerge v w).1) hwf hcv
          rw [hv] at h1
          simp at h1
          set b2 := setCell b curr (some (tileMerge v w).1) with hb2
          have hwf2 : WF b2 := WF_setCell _ _ _ hwf
          have hnv2 : isValid b2 next := by rw [isValid_setCell]; exact hnv
          have h2 := countTiles_setCell b2 next none hwf2 hnv2
          have hgb2 : getCell b2 next = getCell b next := by
            rw [hb2]
            exact getCell_setCell_other b curr next _ hcv.1 hcv.2.2.1 hnv.1 hnv.2.2.1
              (fun h => hcurr_ne h.symm)
          rw [hgb2, hw] at h2
          simp at h2
          have hrec := ih (setCell b2 next none) next true
            (WF_setCell _ _ _ hwf2) (by rw [isValid_setCell, isValid_setCell]; exact hnv)
          omega
        · exact ih b next ch hwf hnv
      · exact ih b next ch hwf hnv
    · exact le_refl _

/-- Every start cell computed by _find_starts is a valid position, for the
four unit directions on a board of positive size. -/
theorem findStarts_valid (b : Board) (d : Vec) (hd : UnitDir d)
    (hw : 0 < b.width) (hh : 0 < b.height) :
    ∀ s ∈ findStarts b d, isValid b s := by
  intro s hs
  rcases hd with rfl | rfl | rfl | rfl <;>
  · simp only [findStarts] at hs
    norm_num at hs
    rcases hs with ⟨x, hx, rfl⟩
    refine ⟨?_, ?_, ?_, ?_⟩ <;> simp <;> omega

theorem mergePhase_dims (b : Board) (d : Vec) (ch : Bool) :
    (mergePhase b d ch).1.width = b.width ∧ (mergePhase b d ch).1.height = b.height := by
  unfold mergePhase
  refine foldl_preserve _ _ _ (fun (bc : Board × Bool) =>
    bc.1.width = b.width ∧ bc.1.height = b.height) ⟨rfl, rfl⟩ ?_
  intro acc s _ hp
  exact ⟨(walkLine_dims _ _ _ _ _).1.trans hp.1, (walkLine_dims _ _ _ _ _).2.trans hp.2⟩

theorem mergePhase_WF (b : Board) (d : Vec) (ch : Bool) (hwf : WF b) :
    WF (mergePhase b d ch).1 := by
  unfold mergePhase
  refine foldl_preserve _ _ _ (fun (bc : Board × Bool) => WF bc.1) hwf ?_
  intro acc s _ hp
  exact walkLine_WF _ _ _ _ _ hp

theorem mergePhase_count (b : Board) (d : Vec) (ch : Bool) (hd : UnitDir d)
    (hw : 0 < b.width) (hh : 0 < b.height) (hwf : WF b) :
    countTiles (mergePhase b d ch).1 ≤ countTiles b := by
  have hinv : (-d.1, -d.2) ≠ ((0 : Int), (0 : Int)) := by
    rcases hd with rfl | rfl | rfl | rfl <;> simp
  unfold mergePhase
  refine (foldl_preserve _ _ _ (fun (bc : Board × Bool) =>
    bc.1.width = b.width ∧ bc.1.height = b.height ∧
    WF bc.1 ∧ countTiles bc.1 ≤ countTiles b) ⟨rfl, rfl, hwf, le_refl _⟩ ?_).2.2.2
  intro acc s hmem hp
  refine ⟨(walkLine_dims _ _ _ _ _).1.trans hp.1, (walkLine_dims _ _ _ _ _).2.trans hp.2.1,
    walkLine_WF _ _ _ _ _ hp.2.2.1, ?_⟩
  calc countTiles (walkLine acc.1 s (-d.1, -d.2) acc.2 (acc.1.width + acc.1.height)).1
      ≤ countTiles acc.1 := by
        apply walkLine_count _ hinv _ _ _ _ hp.2.2.1
        rw [isValid_of_dims acc.1 b s hp.1 hp.2.1]
        exact findStarts_valid b d hd hw hh s hmem
    _ ≤ countTiles b := hp.2.2.2

theorem spawnWith_dims (b : Board) (rc : Nat) (rf : Bool) :
    (spawnWith b rc rf).1.width = b.width ∧ (spawnWith b rc rf).1.height = b.height := by
  unfold spawnWith
  dsimp only
  split
  · exact ⟨rfl, rfl⟩
  · split <;> exact ⟨rfl, rfl⟩

theorem spawnWith_count (b : Board) (rc : Nat) (rf : Bool) (hwf : WF b) :
    countTiles (spawnWith b rc rf).1 ≤ countTiles b + 1 := by
  unfold spawnWith
  dsimp only
  split
  · dsimp only
    omega
  · rename_i hne
    set options := (allCells b).filter (fun p => (getCell b p).isNone) with hopt
    have hlen : rc % options.length < options.length := Nat.mod_lt _ (by omega)
    have hmem : options.getD (rc % options.length) (0, 0) ∈ options := by
      rw [List.getD_eq_getElem _ _ hlen]
      exact List.getElem_mem hlen
    set p := options.getD (rc % options.length) (0, 0) with hp
    have hfil := List.mem_filter.mp hmem
    have hpv : isValid b p := (mem_allCells b p).mp hfil.1
    have hpe : getCell b p = none := Option.isNone_iff_eq_none.mp hfil.2
    have h1 := countTiles_setCell b p (some 2) hwf hpv
    rw [hpe] at h1
    simp at h1
    split
    · have hwf1 : WF (setCell b p (some 2)) := WF_setCell _ _ _ hwf
      have hv1 : isValid (setCell b p (some 2)) p := by rw [isValid_setCell]; exact hpv
      have h2 := countTiles_setCell (setCell b p (some 2)) p (some 4) hwf1 hv1
      rw [getCell_setCell_self b p (some 2) hwf hpv] at h2
      simp at h2
      dsimp only
      omega
    · dsimp only
      omega

/-- Claim C5: the number of occupied cells after a move in a unit direction
is at most the number before plus one (the one coming only from the
post-move spawn), and it never exceeds width times height; the move proper,
before the spawn, never increases the count. -/
theorem c5_conservation (b : Board) (d : Vec) (rc : Nat) (rf : Bool)
    (hwf : WF b) (hd : UnitDir d) (hw : 0 < b.width) (hh : 0 < b.height) :
    countTiles (moveWith b d rc rf) ≤ countTiles b + 1 ∧
    countTiles (moveNoSpawn b d).1 ≤ countTiles b ∧
    countTiles (moveWith b d rc rf) ≤ b.width * b.height := by
  have hd0 : d ≠ (0, 0) := by
    rcases hd with rfl | rfl | rfl | rfl <;> simp
  have hc1w := compact_dims b d
  have hc1wf := compact_WF b d hwf
  have hc1c := compact_count b d hd0 hwf
  set b1 := (compact b d).1 with hb1
  have hmw := mergePhase_dims b1 d (compact b d).2
  have hmwf := mergePhase_WF b1 d (compact b d).2 hc1wf
  have hmc : countTiles (mergePhase b1 d (compact b d).2).1 ≤ countTiles b := by
    calc countTiles (mergePhase b1 d (compact b d).2).1 ≤ countTiles b1 :=
        mergePhase_count b1 d (compact b d).2 hd (by omega) (by omega) hc1wf
      _ = countTiles b := hc1c
  set b2 := (mergePhase b1 d (compact b d).2).1 with hb2
  have hc2w := compact_dims b2 d
  have hc2wf := compact_WF b2 d hmwf
  have hc2c := compact_count b2 d hd0 hmwf
  have hnos : countTiles (moveNoSpawn b d).1 ≤ countTiles b := by
    show countTiles (compact b2 d).1 ≤ countTiles b
    omega
  have hnosw : (moveNoSpawn b d).1.width = b.width ∧ (moveNoSpawn b d).1.height = b.height := by
    constructor
    · show (compact b2 d).1.width = b.width
      omega
    · show (compact b2 d).1.height = b.height
      omega
  have hnoswf : WF (moveNoSpawn b d).1 := by
    show WF (compact b2 d).1
    exact hc2wf
  refine ⟨?_, hnos, ?_⟩
  · unfold moveWith
    dsimp only
    split
    · calc countTiles (spawnWith (moveNoSpawn b d).1 rc rf).1
          ≤ countTiles (moveNoSpawn b d).1 + 1 := spawnWith_count _ rc rf hnoswf
        _ ≤ countTiles b + 1 := by omega
    · omega
  · unfold moveWith
    dsimp only
    split
    · calc countTiles (spawnWith (moveNoSpawn b d).1 rc rf).1
          ≤ (spawnWith (moveNoSpawn b d).1 rc rf).1.width *
            (spawnWith (moveNoSpawn b d).1 rc rf).1.height := countTiles_le _
        _ = b.width * b.height := by
            rw [(spawnWith_dims _ rc rf).1, (spawnWith_dims _ rc rf).2,
              hnosw.1, hnosw.2]
    · calc countTiles (moveNoSpawn b d).1
          ≤ (moveNoSpawn b d).1.width * (moveNoSpawn b d).1.height := countTiles_le _
        _ = b.width * b.height := by rw [hnosw.1, hnosw.2]

/-- Witness for c5_conservation: the concrete scenario row [2,2,4,_] moved
left on a 4 by 1 board. -/
theorem c5_conservation_witness :
    countTiles (moveWith ⟨4, 1, [[some 2], [some 2], [some 4], [none]]⟩ (-1, 0) 0 false)
      ≤ countTiles ⟨4, 1, [[some 2], [some 2], [some 4], [none]]⟩ + 1 ∧
    countTiles (moveNoSpawn ⟨4, 1, [[some 2], [some 2], [some 4], [none]]⟩ (-1, 0)).1
      ≤ countTiles ⟨4, 1, [[some 2], [some 2], [some 4], [none]]⟩ ∧
    countTiles (moveWith ⟨4, 1, [[some 2], [some 2], [some 4], [none]]⟩ (-1, 0) 0 false) ≤ 4 * 1 :=
  c5_conservation ⟨4, 1, [[some 2], [some 2], [some 4], [none]]⟩ (-1, 0) 0 false
    (by decide) (by decide) (by decide) (by decide)

/- The no-op move (claim C3): a board already compacted toward the move
direction with no adjacent equal pair in that direction is left unchanged
and no spawn happens. -/

/-- A board is compacted toward `d`: no occupied cell has a valid empty
neighbor one step along `d`. -/
def Compacted (b : Board) (d : Vec) : Prop :=
  ∀ p ∈ allCells b, getCell b p ≠ none → isValid b (movePosition p d) →
    getCell b (movePosition p d) ≠ none

instance (b : Board) (d : Vec) : Decidable (Compacted b d) := by
  unfold Compacted; infer_instance

/-- No adjacent equal pair along `d`: an occupied cell never has a valid
neighbor one step along `d` holding the same cell contents. -/
def NoAdjPair (b : Board) (d : Vec) : Prop :=
  ∀ p ∈ allCells b, getCell b p ≠ none → isValid b (movePosition p d) →
    getCell b (movePosition p d) ≠ getCell b p

instance (b : Board) (d : Vec) : Decidable (NoAdjPair b d) := by
  unfold NoAdjPair; infer_instance

theorem slideFrom_stuck (b : Board) (curr d : Vec) (fuel : Nat)
    (h : ¬ (isValid b (movePosition curr d) ∧ getCell b (movePosition curr d) = none)) :
    slideFrom b curr d fuel = (b, false) := by
  cases fuel with
  | zero => rfl
  | succ n =>
    simp only [slideFrom]
    rw [if_neg h]

theorem gridPass_id (b : Board) (d : Vec) (hcp : Compacted b d) :
    gridPass b d = (b, false) := by
  unfold gridPass
  refine foldl_preserve _ _ _ (fun (bc : Board × Bool) => bc = (b, false)) rfl ?_
  intro acc p hmem hacc
  subst hacc
  dsimp only
  split
  · rfl
  · rename_i hocc
    rw [slideFrom_stuck _ _ _ _ (fun hg => hcp p hmem hocc hg.1 hg.2)]
    rfl

theorem compact_id (b : Board) (d : Vec) (hcp : Compacted b d) :
    compact b d = (b, false) := by
  unfold compact
  refine foldl_preserve _ _ _ (fun (bc : Board × Bool) => bc = (b, false)) rfl ?_
  intro acc n _ hacc
  subst hacc
  dsimp only
  rw [gridPass_id b d hcp]
  rfl

theorem tileMerge_true_iff (v w : Nat) : (tileMerge v w).2 = true ↔ v = w := by
  unfold tileMerge
  split <;> simp_all

theorem movePosition_inv_cancel (p d : Vec) :
    movePosition (movePosition p (-d.1, -d.2)) d = p := by
  cases p
  cases d
  simp [movePosition]

theorem walkLine_id (b : Board) (d : Vec) (hnp : NoAdjPair b d) (fuel : Nat) :
    ∀ (curr : Vec) (ch : Bool), isValid b curr →
    walkLine b curr (-d.1, -d.2) ch fuel = (b, ch) := by
  induction fuel with
  | zero => exact fun curr ch _ => rfl
  | succ n ih =>
    intro curr ch hcv
    simp only [walkLine]
    split
    · rename_i hnv
      split
      · rename_i v w hv hw
        split
        · rename_i hm
          exfalso
          have hvw : v = w := (tileMerge_true_iff v w).mp hm
          have hmem : movePosition curr (-d.1, -d.2) ∈ allCells b :=
            (mem_allCells b _).mpr hnv
          have := hnp _ hmem (by rw [hw]; exact Option.some_ne_none w)
            (by rw [movePosition_inv_cancel]; exact hcv)
          rw [movePosition_inv_cancel, hv, hw] at this
          exact this (by rw [hvw])
        · exact ih _ ch hnv
      · exact ih _ ch hnv
    · rfl

theorem mergePhase_id (b : Board) (d : Vec) (ch : Bool) (hd : UnitDir d)
    (hw : 0 < b.width) (hh : 0 < b.height) (hnp : NoAdjPair b d) :
    mergePhase b d ch = (b, ch) := by
  unfold mergePhase
  refine foldl_preserve _ _ _ (fun (bc : Board × Bool) => bc = (b, ch)) rfl ?_
  intro acc s hmem hacc
  subst hacc
  dsimp only
  exact walkLine_id b d hnp _ s ch (findStarts_valid b d hd hw hh s hmem)

/-- Claim C3: when the given unit direction can move or merge no tile (the
board is compacted against that edge and has no adjacent equal pair in that
direction), move leaves the grid unchanged for every choice of spawn
randomness (hence nothing spawns), and a second application of the same
move is also a no-op yielding the identical grid. -/
theorem c3_noop_move (b : Board) (d : Vec) (rc rc2 : Nat) (rf rf2 : Bool)
    (hd : UnitDir d) (hw : 0 < b.width) (hh : 0 < b.height)
    (hcp : Compacted b d) (hnp : NoAdjPair b d) :
    moveWith b d rc rf = b ∧ moveNoSpawn b d = (b, false) ∧
    moveWith (moveWith b d rc rf) d rc2 rf2 = b := by
  have hnos : moveNoSpawn b d = (b, false) := by
    unfold moveNoSpawn
    rw [compact_id b d hcp]
    dsimp only
    rw [mergePhase_id b d false hd hw hh hnp]
    dsimp only
    rw [compact_id b d hcp]
    rfl
  have hmv : moveWith b d rc rf = b := by
    unfold moveWith
    rw [hnos]
    rfl
  refine ⟨hmv, hnos, ?_⟩
  rw [hmv]
  unfold moveWith
  rw [hnos]
  rfl

/-- A full 2 by 2 board with pairwise distinct values: compacted and free of
adjacent equal pairs in every direction. -/
def boardStuck22 : Board := ⟨2, 2, [[some 2, some 4], [some 8, some 16]]⟩

/-- Witness for c3_noop_move on a concrete stuck 2 by 2 board, direction
left. -/
theorem c3_noop_move_witness :
    moveWith boardStuck22 (-1, 0) 0 false = boardStuck22 ∧
    moveNoSpawn boardStuck22 (-1, 0) = (boardStuck22, false) ∧
    moveWith (moveWith boardStuck22 (-1, 0) 0 false) (-1, 0) 1 true = boardStuck22 :=
  c3_noop_move boardStuck22 (-1, 0) 0 1 false true (by decide) (by decide) (by decide)
    (by decide) (by decide)

/- The change flag of _compact (claim C6, flag part): it is true exactly
when the grid changed, via a weight measure that strictly increases with
every elementary slide step. -/

theorem sum_pointwise {α : Type} [DecidableEq α] (L : List α) (hN : L.Nodup)
    (q : α) (hq : q ∈ L) (f g : α → Int)
    (h : ∀ p ∈ L, p ≠ q → f p = g p) :
    (L.map f).sum = (L.map g).sum + (f q - g q) := by
  have hperm := List.perm_cons_erase hq
  have hf := (hperm.map f).sum_eq
  have hg := (hperm.map g).sum_eq
  rw [List.map_cons, List.sum_cons] at hf hg
  have heq : (L.erase q).map f = (L.erase q).map g := by
    apply List.map_congr_left
    intro a ha
    have hmem := hN.mem_erase_iff.mp ha
    exact h a hmem.2 hmem.1
  rw [hf, hg, heq]
  ring

/-- The sum, over occupied cells, of the dot product of the position with
the direction: every elementary slide step along a unit direction increases
it by exactly one. -/
def weightSum (b : Board) (d : Vec) : Int :=
  ((allCells b).map (fun p => if (getCell b p).isSome then d.1 * p.1 + d.2 * p.2 else 0)).sum

theorem weightSum_setCell (b : Board) (q : Vec) (v : Option Nat) (d : Vec)
    (hwf : WF b) (hq : isValid b q) :
    weightSum (setCell b q v) d = weightSum b d +
      ((if v.isSome then d.1 * q.1 + d.2 * q.2 else 0) -
       (if (getCell b q).isSome then d.1 * q.1 + d.2 * q.2 else 0)) := by
  unfold weightSum
  rw [allCells_setCell]
  have := sum_pointwise (allCells b) (allCells_nodup b) q ((mem_allCells b q).mpr hq)
    (fun p => if (getCell (setCell b q v) p).isSome then d.1 * p.1 + d.2 * p.2 else 0)
    (fun p => if (getCell b p).isSome then d.1 * p.1 + d.2 * p.2 else 0)
    (fun p hp hne => by
      have hpv := (mem_allCells b p).mp hp
      dsimp only
      rw [getCell_setCell_other b q p v hq.1 hq.2.2.1 hpv.1 hpv.2.2.1 hne])
  dsimp only at this
  rw [getCell_setCell_self b q v hwf hq] at this
  exact this

theorem unitDir_dot_self (d : Vec) (hd : UnitDir d) : d.1 * d.1 + d.2 * d.2 = 1 := by
  rcases hd with rfl | rfl | rfl | rfl <;> norm_num

theorem slideFrom_phi (d : Vec) (hd : UnitDir d) (fuel : Nat) :
    ∀ (b : Board) (curr : Vec), WF b → isValid b curr → getCell b curr ≠ none →
    ∃ k : Nat, weightSum (slideFrom b curr d fuel).1 d = weightSum b d + k ∧
      ((slideFrom b curr d fuel).2 = true ↔ 0 < k) := by
  induction fuel with
  | zero =>
    intro b curr _ _ _
    exact ⟨0, by simp [slideFrom], by simp [slideFrom]⟩
  | succ n ih =>
    intro b curr hwf hcv hocc
    simp only [slideFrom]
    split
    · rename_i hg
      obtain ⟨hnv, hne⟩ := hg
      set next := movePosition curr d with hnext
      have hd0 : d ≠ (0, 0) := by rcases hd with rfl | rfl | rfl | rfl <;> simp
      have hcurr_ne : curr ≠ next := fun h => movePosition_ne curr d hd0 h.symm
      have hsome : (getCell b curr).isSome := Option.isSome_iff_ne_none.mpr hocc
      have h1 := weightSum_setCell b next (getCell b curr) d hwf hnv
      rw [hne] at h1
      simp only [hsome, Option.isSome_none, if_true, Bool.false_eq_true, if_false] at h1
      set b2 := setCell b next (getCell b curr) with hb2
      have hwf2 : WF b2 := WF_setCell _ _ _ hwf
      have hv2 : isValid b2 curr := by rw [isValid_setCell]; exact hcv
      have hgb2c : getCell b2 curr = getCell b curr := by
        rw [hb2]
        exact getCell_setCell_other b next curr _ hnv.1 hnv.2.2.1 hcv.1 hcv.2.2.1 hcurr_ne
      have h2 := weightSum_setCell b2 curr none d hwf2 hv2
      rw [hgb2c] at h2
      simp only [hsome, Option.isSome_none, if_true, Bool.false_eq_true, if_false] at h2
      have hstep : weightSum (setCell b2 curr none) d = weightSum b d + 1 := by
        have harith : (d.1 * next.1 + d.2 * next.2) - (d.1 * curr.1 + d.2 * curr.2) = 1 := by
          have hdd := unitDir_dot_self d hd
          rw [hnext]
          unfold movePosition
          dsimp only
          linear_combination hdd
        omega
      have hb1wf : WF (setCell b2 curr none) := WF_setCell _ _ _ hwf2
      have hb1v : isValid (setCell b2 curr none) next := by
        rw [isValid_setCell, isValid_setCell]; exact hnv
      have hb1occ : getCell (setCell b2 curr none) next ≠ none := by
        rw [getCell_setCell_other b2 curr next _ hcv.1 hcv.2.2.1 hnv.1 hnv.2.2.1
          (fun h => hcurr_ne h.symm)]
        rw [hb2, getCell_setCell_self b next (getCell b curr) hwf hnv]
        exact hocc
      obtain ⟨k, hk1, _⟩ := ih (setCell b2 curr none) next hb1wf hb1v hb1occ
      refine ⟨k + 1, ?_, by simp⟩
      dsimp only
      rw [hk1, hstep]
      push_cast
      ring
    · exact ⟨0, by simp, by simp⟩

theorem slideFrom_false (b : Board) (curr d : Vec) (fuel : Nat)
    (h : (slideFrom b curr d fuel).2 = false) : (slideFrom b curr d fuel).1 = b := by
  cases fuel with
  | zero => rfl
  | succ n =>
    simp only [slideFrom] at h ⊢
    by_cases hc : isValid b (movePosition curr d) ∧ getCell b (movePosition curr d) = none
    · rw [if_pos hc] at h
      simp at h
    · rw [if_neg hc]

theorem gridPass_phi (b : Board) (d : Vec) (hd : UnitDir d) (hwf : WF b) :
    ∃ k : Nat, weightSum (gridPass b d).1 d = weightSum b d + k ∧
      ((gridPass b d).2 = true ↔ 0 < k) := by
  unfold gridPass
  have := foldl_preserve
    (fun (bc : Board × Bool) p =>
      if getCell bc.1 p = none then bc
      else
        ((slideFrom bc.1 p d (bc.1.width + bc.1.height)).1,
         bc.2 || (slideFrom bc.1 p d (bc.1.width + bc.1.height)).2))
    (allCells b) (b, false)
    (fun (bc : Board × Bool) => bc.1.width = b.width ∧ bc.1.height = b.height ∧
      WF bc.1 ∧ ∃ k : Nat, weightSum bc.1 d = weightSum b d + k ∧ (bc.2 = true ↔ 0 < k))
    ⟨rfl, rfl, hwf, 0, by simp, by simp⟩ ?_
  · exact this.2.2.2
  · intro acc p hmem hp
    obtain ⟨hpw, hph, hpwf, k, hk1, hk2⟩ := hp
    dsimp only
    split
    · exact ⟨hpw, hph, hpwf, k, hk1, hk2⟩
    · rename_i hocc
      have hpv : isValid acc.1 p := by
        rw [isValid_of_dims acc.1 b p hpw hph]
        exact (mem_allCells b p).mp hmem
      obtain ⟨k2, hk21, hk22⟩ := slideFrom_phi d hd _ acc.1 p hpwf hpv hocc
      refine ⟨(slideFrom_dims d _ _ _).1.trans hpw, (slideFrom_dims d _ _ _).2.trans hph,
        slideFrom_WF d _ _ _ hpwf, k + k2, ?_, ?_⟩
      · rw [hk21, hk1]
        push_cast
        ring
      · simp only [Bool.or_eq_true, hk2, hk22]
        omega

theorem gridPass_false (b : Board) (d : Vec)
    (h : (gridPass b d).2 = false) : (gridPass b d).1 = b := by
  unfold gridPass at h ⊢
  have := foldl_preserve
    (fun (bc : Board × Bool) p =>
      if getCell bc.1 p = none then bc
      else
        ((slideFrom bc.1 p d (bc.1.width + bc.1.height)).1,
         bc.2 || (slideFrom bc.1 p d (bc.1.width + bc.1.height)).2))
    (allCells b) (b, false)
    (fun (bc : Board × Bool) => bc.2 = false → bc.1 = b)
    (fun _ => rfl) ?_
  · exact this h
  · intro acc p _ hp
    dsimp only
    split
    · exact hp
    · intro hfl
      simp only [Bool.or_eq_false_iff] at hfl
      rw [slideFrom_false _ _ _ _ hfl.2]
      exact hp hfl.1

theorem compact_phi (b : Board) (d : Vec) (hd : UnitDir d) (hwf : WF b) :
    ∃ k : Nat, weightSum (compact b d).1 d = weightSum b d + k ∧
      ((compact b d).2 = true ↔ 0 < k) := by
  unfold compact
  have := foldl_preserve
    (fun (bc : Board × Bool) (_ : Nat) =>
      ((gridPass bc.1 d).1, bc.2 || (gridPass bc.1 d).2))
    (List.range (max b.width b.height)) (b, false)
    (fun (bc : Board × Bool) => WF bc.1 ∧
      ∃ k : Nat, weightSum bc.1 d = weightSum b d + k ∧ (bc.2 = true ↔ 0 < k))
    ⟨hwf, 0, by simp, by simp⟩ ?_
  · exact this.2
  · intro acc n _ hp
    obtain ⟨hpwf, k, hk1, hk2⟩ := hp
    obtain ⟨k2, hk21, hk22⟩ := gridPass_phi acc.1 d hd hpwf
    refine ⟨gridPass_WF acc.1 d hpwf, k + k2, ?_, ?_⟩
    · dsimp only
      rw [hk21, hk1]
      push_cast
      ring
    · dsimp only
      simp only [Bool.or_eq_true, hk2, hk22]
      omega

theorem compact_false (b : Board) (d : Vec)
    (h : (compact b d).2 = false) : (compact b d).1 = b := by
  unfold compact at h ⊢
  have := foldl_preserve
    (fun (bc : Board × Bool) (_ : Nat) =>
      ((gridPass bc.1 d).1, bc.2 || (gridPass bc.1 d).2))
    (List.range (max b.width b.height)) (b, false)
    (fun (bc : Board × Bool) => bc.2 = false → bc.1 = b)
    (fun _ => rfl) ?_
  · exact this h
  · intro acc n _ hp
    dsimp only
    intro hfl
    simp only [Bool.or_eq_false_iff] at hfl
    rw [gridPass_false _ _ hfl.2]
    exact hp hfl.1

/-- The flag returned by _compact is true exactly when the grid changed. -/
theorem compact_flag_iff (b : Board) (d : Vec) (hd : UnitDir d) (hwf : WF b) :
    (compact b d).2 = true ↔ (compact b d).1 ≠ b := by
  constructor
  · intro hfl
    obtain ⟨k, hk1, hk2⟩ := compact_phi b d hd hwf
    intro heq
    rw [heq] at hk1
    have : 0 < k := hk2.mp hfl
    omega
  · intro hne
    by_contra hfl
    simp only [Bool.not_eq_true] at hfl
    exact hne (compact_false b d hfl)

/- List-level theory of one compaction line (claim C6, compaction part).
A line is the list of cells met when scanning a row or column in index
order; the grid pass acts on each line independently.  `headSlide` slides
the first cell of a list as far as possible toward the end; `passE` is one
full ascending scan with such slides, which is what one grid pass does to
a line when the move direction points toward the high indices. -/

/-- Slide the tile at index 0 fully toward the end of the list (stopping at
the first occupied cell or the end). -/
def headSlide {α : Type} : List (Option α) → List (Option α)
  | [] => []
  | none :: t => none :: t
  | [some a] => [some a]
  | some a :: none :: t => none :: headSlide (some a :: t)
  | some a :: some b2 :: t => some a :: some b2 :: t
termination_by l => l.length
decreasing_by all_goals (simp only [List.length_cons]; omega)

/-- One ascending scan over a line, fully sliding every tile toward the
end of the list. -/
def passE {α : Type} : List (Option α) → List (Option α)
  | [] => []
  | none :: t => none :: passE t
  | [some a] => [some a]
  | some a :: none :: t => none :: passE (some a :: t)
  | some a :: some b2 :: t => some a :: passE (some b2 :: t)
termination_by l => l.length
decreasing_by all_goals (simp only [List.length_cons]; omega)

/-- The line fully compacted toward the end of the list. -/
def compactBack {α : Type} (l : List (Option α)) : List (Option α) :=
  List.replicate (l.length - (l.filterMap id).length) none ++ (l.filterMap id).map some

/-- The line fully compacted toward the front of the list. -/
def compactFront {α : Type} (l : List (Option α)) : List (Option α) :=
  (l.filterMap id).map some ++ List.replicate (l.length - (l.filterMap id).length) none

theorem headSlide_length {α : Type} : ∀ l : List (Option α),
    (headSlide l).length = l.length := by
  suffices h : ∀ (n : Nat) (l : List (Option α)), l.length ≤ n →
      (headSlide l).length = l.length from fun l => h l.length l (le_refl _)
  intro n
  induction n with
  | zero =>
    intro l hl
    have : l = [] := List.eq_nil_of_length_eq_zero (by omega)
    subst this
    simp [headSlide]
  | succ n ih =>
    intro l hl
    match l with
    | [] => simp [headSlide]
    | none :: t => simp [headSlide]
    | [some a] => simp [headSlide]
    | some a :: none :: t =>
      simp only [headSlide, List.length_cons]
      rw [ih (some a :: t) (by simp at hl ⊢; omega)]
      simp
    | some a :: some b2 :: t => simp [headSlide]

theorem passE_length {α : Type} : ∀ l : List (Option α),
    (passE l).length = l.length := by
  suffices h : ∀ (n : Nat) (l : List (Option α)), l.length ≤ n →
      (passE l).length = l.length from fun l => h l.length l (le_refl _)
  intro n
  induction n with
  | zero =>
    intro l hl
    have : l = [] := List.eq_nil_of_length_eq_zero (by omega)
    subst this
    simp [passE]
  | succ n ih =>
    intro l hl
    match l with
    | [] => simp [passE]
    | none :: t =>
      simp only [passE, List.length_cons]
      rw [ih t (by simp at hl; omega)]
    | [some a] => simp [passE]
    | some a :: none :: t =>
      simp only [passE, List.length_cons]
      rw [ih (some a :: t) (by simp at hl ⊢; omega)]
      simp
    | some a :: some b2 :: t =>
      simp only [passE, List.length_cons]
      rw [ih (some b2 :: t) (by simp at hl ⊢; omega)]
      simp

theorem passE_filterMap {α : Type} : ∀ l : List (Option α),
    (passE l).filterMap id = l.filterMap id := by
  suffices h : ∀ (n : Nat) (l : List (Option α)), l.length ≤ n →
      (passE l).filterMap id = l.filterMap id from fun l => h l.length l (le_refl _)
  intro n
  induction n with
  | zero =>
    intro l hl
    have : l = [] := List.eq_nil_of_length_eq_zero (by omega)
    subst this
    simp [passE]
  | succ n ih =>
    intro l hl
    match l with
    | [] => simp [passE]
    | none :: t =>
      simp only [passE, List.filterMap_cons]
      exact ih t (by simp at hl; omega)
    | [some a] => simp [passE]
    | some a :: none :: t =>
      simp only [passE, List.filterMap_cons]
      rw [ih (some a :: t) (by simp at hl ⊢; omega)]
      simp
    | some a :: some b2 :: t =>
      simp only [passE, List.filterMap_cons]
      rw [ih (some b2 :: t) (by simp at hl ⊢; omega)]
      simp

/-- passE gives the same result after the head tile has been pre-slid. -/
theorem passE_headSlide {α : Type} : ∀ l : List (Option α),
    passE (headSlide l) = passE l := by
  suffices h : ∀ (n : Nat) (l : List (Option α)), l.length ≤ n →
      passE (headSlide l) = passE l from fun l => h l.length l (le_refl _)
  intro n
  induction n with
  | zero =>
    intro l hl
    have : l = [] := List.eq_nil_of_length_eq_zero (by omega)
    subst this
    simp [headSlide]
  | succ n ih =>
    intro l hl
    match l with
    | [] => simp [headSlide]
    | none :: t => simp [headSlide]
    | [some a] => simp [headSlide]
    | some a :: none :: t =>
      simp only [headSlide]
      have hstep : passE (none :: headSlide (some a :: t))
          = none :: passE (headSlide (some a :: t)) := by
        simp only [passE]
      rw [hstep, ih (some a :: t) (by simp at hl ⊢; omega)]
      simp only [passE]
    | some a :: some b2 :: t => simp [headSlide]

/-- A pass is: fully slide the head, then pass over the tail of the
result. -/
theorem passE_eq_headSlide_cons {α : Type} (s : List (Option α)) (c0 : Option α)
    (t2 : List (Option α)) (h : headSlide s = c0 :: t2) :
    passE s = c0 :: passE t2 := by
  match s with
  | [] => simp [headSlide] at h
  | none :: t =>
    simp only [headSlide] at h
    injection h with h1 h2
    subst h1
    subst h2
    simp only [passE]
  | [some a] =>
    simp only [headSlide] at h
    injection h with h1 h2
    subst h1
    subst h2
    simp only [passE]
  | some a :: none :: t =>
    simp only [headSlide] at h
    injection h with h1 h2
    subst h1
    subst h2
    have hstep : passE (some a :: none :: t) = none :: passE (some a :: t) := by
      simp only [passE]
    rw [hstep, ← passE_headSlide (some a :: t)]
  | some a :: some b2 :: t =>
    simp only [headSlide] at h
    injection h with h1 h2
    subst h1
    subst h2
    simp only [passE]

theorem filterMap_eq_nil_all_none {α : Type} (l : List (Option α))
    (h : l.filterMap id = []) : ∀ x ∈ l, x = none := by
  intro x hx
  cases x with
  | none => rfl
  | some a =>
    have hmem : a ∈ l.filterMap id := List.mem_filterMap.mpr ⟨some a, hx, rfl⟩
    rw [h] at hmem
    simp at hmem

theorem passE_all_none {α : Type} : ∀ l : List (Option α),
    (∀ x ∈ l, x = none) → passE l = l := by
  suffices h : ∀ (n : Nat) (l : List (Option α)), l.length ≤ n →
      (∀ x ∈ l, x = none) → passE l = l from fun l => h l.length l (le_refl _)
  intro n
  induction n with
  | zero =>
    intro l hl _
    have : l = [] := List.eq_nil_of_length_eq_zero (by omega)
    subst this
    simp [passE]
  | succ n ih =>
    intro l hl hall
    match l with
    | [] => simp [passE]
    | none :: t =>
      simp only [passE]
      rw [ih t (by simp at hl; omega) (fun x hx => hall x (by simp [hx]))]
    | some a :: t =>
      exact absurd (hall (some a) (by simp)) (by simp)

theorem passE_map_some {α : Type} : ∀ s : List α,
    passE (s.map some) = s.map some := by
  intro s
  induction s with
  | nil => simp [passE]
  | cons a s2 ih =>
    cases s2 with
    | nil => simp [passE]
    | cons b s3 =>
      simp only [List.map_cons] at ih ⊢
      simp only [passE]
      rw [ih]

theorem passE_append_map_some {α : Type} : ∀ (p : List (Option α)) (s : List α),
    passE (p ++ s.map some) = passE p ++ s.map some := by
  suffices h : ∀ (n : Nat) (p : List (Option α)), p.length ≤ n → ∀ s : List α,
      passE (p ++ s.map some) = passE p ++ s.map some from
    fun p s => h p.length p (le_refl _) s
  intro n
  induction n with
  | zero =>
    intro p hp s
    have : p = [] := List.eq_nil_of_length_eq_zero (by omega)
    subst this
    simp [passE, passE_map_some]
  | succ n ih =>
    intro p hp s
    match p with
    | [] => simp [passE, passE_map_some]
    | none :: p2 =>
      simp only [List.cons_append, passE]
      rw [ih p2 (by simp at hp; omega) s]
    | [some a] =>
      cases s with
      | nil => simp [passE]
      | cons c s2 =>
        simp only [List.cons_append, List.nil_append, List.map_cons]
        simp only [passE]
        rw [show (some c : Option α) :: (s2.map some) = (c :: s2).map some from rfl]
        rw [passE_map_some (c :: s2)]
        simp [passE]
    | some a :: none :: p2 =>
      simp only [List.cons_append, passE]
      have := ih (some a :: p2) (by simp at hp ⊢; omega) s
      simp only [List.cons_append] at this
      rw [this]
    | some a :: some b2 :: p2 =>
      simp only [List.cons_append, passE]
      have := ih (some b2 :: p2) (by simp at hp ⊢; omega) s
      simp only [List.cons_append] at this
      rw [this]

theorem passE_iterate_concat {α : Type} (k : Nat) :
    ∀ (q : List (Option α)) (a : α),
    passE^[k] (q ++ [some a]) = passE^[k] q ++ [some a] := by
  induction k with
  | zero => intro q a; simp
  | succ k ih =>
    intro q a
    rw [Function.iterate_succ_apply, Function.iterate_succ_apply]
    rw [show [some a] = [a].map some from rfl, passE_append_map_some]
    exact ih (passE q) a

/-- The last tile of a line reaches the last cell after one pass. -/
theorem passE_last_tile {α : Type} : ∀ (l : List (Option α)) (s : List α) (a : α),
    l.filterMap id = s ++ [a] →
    ∃ q, passE l = q ++ [some a] ∧ q.filterMap id = s := by
  suffices h : ∀ (n : Nat) (l : List (Option α)), l.length ≤ n → ∀ (s : List α) (a : α),
      l.filterMap id = s ++ [a] →
      ∃ q, passE l = q ++ [some a] ∧ q.filterMap id = s from
    fun l s a hl => h l.length l (le_refl _) s a hl
  intro n
  induction n with
  | zero =>
    intro l hl s a hfm
    have : l = [] := List.eq_nil_of_length_eq_zero (by omega)
    subst this
    simp at hfm
  | succ n ih =>
    intro l hl s a hfm
    match l with
    | [] => simp at hfm
    | none :: t =>
      simp only [List.filterMap_cons] at hfm
      obtain ⟨q, hq1, hq2⟩ := ih t (by simp at hl; omega) s a hfm
      refine ⟨none :: q, ?_, by simpa using hq2⟩
      simp only [passE]
      rw [hq1]
      rfl
    | [some a0] =>
      simp only [List.filterMap_cons, List.filterMap_nil] at hfm
      have hs : s = [] ∧ a = a0 := by
        cases s with
        | nil =>
          simp only [List.nil_append] at hfm
          injection hfm with h1 _
          exact ⟨rfl, h1.symm⟩
        | cons s0 s2 =>
          exfalso
          have := congrArg List.length hfm
          simp at this
      obtain ⟨rfl, rfl⟩ := hs
      exact ⟨[], by simp [passE], by simp⟩
    | some a0 :: none :: t =>
      have hfm2 : (some a0 :: t).filterMap id = s ++ [a] := by
        simpa using hfm
      obtain ⟨q, hq1, hq2⟩ := ih (some a0 :: t) (by simp at hl ⊢; omega) s a hfm2
      refine ⟨none :: q, ?_, by simpa using hq2⟩
      simp only [passE]
      rw [hq1]
      rfl
    | some a0 :: some b0 :: t =>
      have hne : (some b0 :: t).filterMap id ≠ [] := by simp
      simp only [List.filterMap_cons, id] at hfm
      cases s with
      | nil =>
        simp only [List.nil_append] at hfm
        injection hfm with h1 h2
        exact absurd h2 (by simp)
      | cons s0 s2 =>
        simp only [List.cons_append] at hfm
        injection hfm with h1 h2
        subst h1
        obtain ⟨q, hq1, hq2⟩ := ih (some b0 :: t) (by simp at hl ⊢; omega) s2 a
          (by simpa using h2)
        refine ⟨some a0 :: q, ?_, by simpa using hq2⟩
        simp only [passE]
        rw [hq1]
        rfl

/-- Iterating the pass at least length-many times fully compacts a line
toward the end. -/
theorem passE_iterate_compacts {α : Type} : ∀ (m : Nat) (l : List (Option α)),
    l.length ≤ m → ∀ n : Nat, l.length ≤ n → passE^[n] l = compactBack l := by
  intro m
  induction m with
  | zero =>
    intro l hl n _
    have : l = [] := List.eq_nil_of_length_eq_zero (by omega)
    subst this
    simp [compactBack, Function.iterate_fixed, passE]
  | succ m ih =>
    intro l hl n hn
    rcases List.eq_nil_or_concat (l.filterMap id) with hfm | ⟨s, a, hfm⟩
    · have hall := filterMap_eq_nil_all_none l hfm
      have hfix : passE l = l := passE_all_none l hall
      rw [Function.iterate_fixed hfix]
      unfold compactBack
      rw [hfm]
      simp only [List.length_nil, List.map_nil, List.append_nil, Nat.sub_zero]
      exact List.eq_replicate_of_mem hall
    · rw [List.concat_eq_append] at hfm
      have hfm_len : (l.filterMap id).length ≤ l.length := List.length_filterMap_le id l
      have hlen1 : 1 ≤ l.length := by
        rw [hfm] at hfm_len
        simp at hfm_len
        omega
      obtain ⟨q, hq1, hq2⟩ := passE_last_tile l s a hfm
      have hqlen : q.length = l.length - 1 := by
        have := passE_length l
        rw [hq1] at this
        simp at this
        omega
      cases n with
      | zero => omega
      | succ n2 =>
        rw [Function.iterate_succ_apply, hq1, passE_iterate_concat]
        rw [ih q (by omega) n2 (by omega)]
        unfold compactBack
        rw [hq2, hfm]
        simp only [List.length_append, List.length_cons, List.length_nil, List.map_append,
          List.map_cons, List.map_nil]
        rw [List.append_assoc]
        have : l.length - (s.length + 1) = q.length - s.length := by omega
        rw [this]

/- Index arithmetic helpers on lists. -/

theorem getD_append_add {α : Type} : ∀ (A B : List α) (j : Nat) (d : α),
    (A ++ B).getD (A.length + j) d = B.getD j d := by
  intro A
  induction A with
  | nil => simp
  | cons a A2 ih =>
    intro B j d
    simp only [List.cons_append, List.length_cons]
    rw [show A2.length + 1 + j = (A2.length + j) + 1 by omega]
    simp only [List.getD_cons_succ]
    exact ih B j d

theorem getD_append_lt {α : Type} : ∀ (A B : List α) (j : Nat) (d : α),
    j < A.length → (A ++ B).getD j d = A.getD j d := by
  intro A
  induction A with
  | nil => simp
  | cons a A2 ih =>
    intro B j d hj
    cases j with
    | zero => simp
    | succ j2 =>
      simp only [List.cons_append, List.getD_cons_succ]
      exact ih B j2 d (by simp at hj; omega)

theorem set_append_add {α : Type} : ∀ (A B : List α) (j : Nat) (v : α),
    (A ++ B).set (A.length + j) v = A ++ B.set j v := by
  intro A
  induction A with
  | nil => simp
  | cons a A2 ih =>
    intro B j v
    simp only [List.cons_append, List.length_cons]
    rw [show A2.length + 1 + j = (A2.length + j) + 1 by omega]
    simp only [List.set_cons_succ]
    rw [ih B j v]

theorem take_append_add {α : Type} : ∀ (A B : List α) (j : Nat),
    (A ++ B).take (A.length + j) = A ++ B.take j := by
  intro A
  induction A with
  | nil => simp
  | cons a A2 ih =>
    intro B j
    simp only [List.cons_append, List.length_cons]
    rw [show A2.length + 1 + j = (A2.length + j) + 1 by omega]
    simp only [List.take_succ_cons]
    rw [ih B j]

theorem drop_append_add {α : Type} : ∀ (A B : List α) (j : Nat),
    (A ++ B).drop (A.length + j) = B.drop j := by
  intro A
  induction A with
  | nil => simp
  | cons a A2 ih =>
    intro B j
    simp only [List.cons_append, List.length_cons]
    rw [show A2.length + 1 + j = (A2.length + j) + 1 by omega]
    simp only [List.drop_succ_cons]
    exact ih B j

/- The list-level model of one while-loop slide and of one scan body, for
the direction that points toward the high indices of the line. -/

/-- The while loop of _compact seen on a single line, direction toward the
end of the list. -/
def lineSlideD {α : Type} [DecidableEq α] : List (Option α) → Nat → Nat → List (Option α)
  | l, _, 0 => l
  | l, i, fuel + 1 =>
    if i + 1 < l.length ∧ l.getD (i + 1) none = none then
      lineSlideD ((l.set (i + 1) (l.getD i none)).set i none) (i + 1) fuel
    else l

/-- One cell visit of the compaction scan on a line (empty cells are
skipped), direction toward the end of the list. -/
def lineBodyD {α : Type} [DecidableEq α] (fuel : Nat) (l : List (Option α)) (i : Nat) :
    List (Option α) :=
  if l.getD i none = none then l else lineSlideD l i fuel

/-- One full grid pass restricted to a line, direction toward the end. -/
def lineScanD {α : Type} [DecidableEq α] (fuel : Nat) (l : List (Option α)) :
    List (Option α) :=
  (List.range l.length).foldl (lineBodyD fuel) l

theorem lineSlideD_shift {α : Type} [DecidableEq α] : ∀ (fuel : Nat) (c : Option α)
    (t : List (Option α)) (i : Nat),
    lineSlideD (c :: t) (i + 1) fuel = c :: lineSlideD t i fuel := by
  intro fuel
  induction fuel with
  | zero => intro c t i; rfl
  | succ n ih =>
    intro c t i
    simp only [lineSlideD, List.length_cons, List.getD_cons_succ, List.set_cons_succ]
    by_cases hg : i + 1 < t.length ∧ t.getD (i + 1) none = none
    · rw [if_pos (show i + 1 + 1 < t.length + 1 ∧ t.getD (i + 1) none = none from
        ⟨by omega, hg.2⟩), if_pos hg]
      exact ih c _ (i + 1)
    · rw [if_neg (fun hc => hg ⟨by omega, hc.2⟩), if_neg hg]

theorem lineSlideD_eq_headSlide {α : Type} [DecidableEq α] :
    ∀ (i fuel : Nat) (l : List (Option α)),
    l.getD i none ≠ none → l.length ≤ fuel + i →
    lineSlideD l i fuel = l.take i ++ headSlide (l.drop i) := by
  intro i
  induction i with
  | succ i ih =>
    intro fuel l hocc hlen
    match l with
    | [] =>
      exfalso
      exact hocc (by simp)
    | c :: t =>
      rw [lineSlideD_shift]
      simp only [List.getD_cons_succ] at hocc
      rw [ih fuel t hocc (by simp at hlen; omega)]
      simp
  | zero =>
    intro fuel
    induction fuel with
    | zero =>
      intro l hocc hlen
      exfalso
      have : l = [] := List.eq_nil_of_length_eq_zero (by omega)
      subst this
      exact hocc (by simp)
    | succ n ihf =>
      intro l hocc hlen
      match l with
      | [] =>
        exfalso
        exact hocc (by simp)
      | none :: t =>
        exfalso
        exact hocc (by simp)
      | [some a] =>
        simp only [lineSlideD]
        rw [if_neg (by simp)]
        simp [headSlide]
      | some a :: none :: t2 =>
        simp only [lineSlideD]
        rw [if_pos (by refine ⟨by simp, by simp⟩)]
        simp only [List.getD_cons_zero, List.set_cons_succ, List.set_cons_zero]
        rw [lineSlideD_shift]
        rw [ihf (some a :: t2) (by simp) (by simp at hlen ⊢; omega)]
        simp only [List.take_zero, List.drop_zero, List.nil_append]
        simp [headSlide]
      | some a :: some b2 :: t2 =>
        simp only [lineSlideD]
        rw [if_neg (by simp)]
        simp [headSlide]

theorem lineScanD_from {α : Type} [DecidableEq α] : ∀ (k : Nat) (fuel : Nat) (l : List (Option α)) (i : Nat),
    l.length = i + k → l.length ≤ fuel →
    (List.range' i k).foldl (lineBodyD fuel) l = l.take i ++ passE (l.drop i) := by
  intro k
  induction k with
  | zero =>
    intro fuel l i hlen _
    simp only [List.range', List.foldl_nil]
    rw [List.take_of_length_le (by omega), List.drop_of_length_le (by omega)]
    simp [passE]
  | succ k ih =>
    intro fuel l i hlen hfuel
    rw [List.range'_succ, List.foldl_cons]
    have hi : i < l.length := by omega
    by_cases hc : l.getD i none = none
    · rw [show lineBodyD fuel l i = l from by unfold lineBodyD; rw [if_pos hc]]
      rw [ih fuel l (i + 1) (by omega) hfuel]
      have hdrop : l.drop i = none :: l.drop (i + 1) := by
        rw [List.drop_eq_getElem_cons hi]
        rw [← List.getD_eq_getElem l none hi, hc]
      rw [hdrop]
      rw [show passE (none :: l.drop (i + 1)) = none :: passE (l.drop (i + 1)) by
        simp only [passE]]
      rw [List.take_succ, List.getElem?_eq_getElem hi]
      rw [← List.getD_eq_getElem l none hi, hc]
      simp
    · rw [show lineBodyD fuel l i = lineSlideD l i fuel from by
        unfold lineBodyD; rw [if_neg hc]]
      rw [lineSlideD_eq_headSlide i fuel l hc (by omega)]
      have hslen : (headSlide (l.drop i)).length = l.length - i := by
        rw [headSlide_length, List.length_drop]
      obtain ⟨hs0, hst, hhs⟩ : ∃ hs0 hst, headSlide (l.drop i) = hs0 :: hst := by
        cases hx : headSlide (l.drop i) with
        | nil =>
          exfalso
          rw [hx] at hslen
          simp at hslen
          omega
        | cons a b => exact ⟨a, b, rfl⟩
      rw [hhs]
      rw [hhs] at hslen
      have htklen : (l.take i).length = i := by
        rw [List.length_take]
        omega
      have hlen2 : (l.take i ++ hs0 :: hst).length = (i + 1) + k := by
        simp only [List.length_append, List.length_cons]
        rw [htklen]
        simp at hslen
        omega
      rw [ih fuel _ (i + 1) hlen2 (by omega)]
      have htake : (l.take i ++ hs0 :: hst).take (i + 1) = l.take i ++ [hs0] := by
        rw [show i + 1 = (l.take i).length + 1 by omega, take_append_add]
        simp
      have hdrop : (l.take i ++ hs0 :: hst).drop (i + 1) = hst := by
        rw [show i + 1 = (l.take i).length + 1 by omega, drop_append_add]
        simp
      rw [htake, hdrop]
      rw [passE_eq_headSlide_cons (l.drop i) hs0 hst hhs]
      simp

/-- One scan along a line in the high-index direction is exactly passE. -/
theorem lineScanD_eq_passE {α : Type} [DecidableEq α] (fuel : Nat) (l : List (Option α))
    (hfuel : l.length ≤ fuel) : lineScanD fuel l = passE l := by
  unfold lineScanD
  rw [List.range_eq_range']
  rw [lineScanD_from l.length fuel l 0 (by omega) hfuel]
  simp

theorem lineScanD_iterate {α : Type} [DecidableEq α] (fuel : Nat) :
    ∀ (n : Nat) (l : List (Option α)), l.length ≤ fuel →
    (lineScanD fuel)^[n] l = passE^[n] l := by
  intro n
  induction n with
  | zero => intro l _; rfl
  | succ n ih =>
    intro l hfuel
    rw [Function.iterate_succ_apply, Function.iterate_succ_apply]
    rw [lineScanD_eq_passE fuel l hfuel]
    exact ih (passE l) (by rw [passE_length]; exact hfuel)

/-- Iterating the line scan at least length-many times compacts the line
toward the end. -/
theorem lineScanD_iterate_compacts {α : Type} [DecidableEq α] (fuel n : Nat)
    (l : List (Option α)) (hfuel : l.length ≤ fuel) (hn : l.length ≤ n) :
    (lineScanD fuel)^[n] l = compactBack l := by
  rw [lineScanD_iterate fuel n l hfuel]
  exact passE_iterate_compacts l.length l (le_refl _) n hn

/- The list-level model for the direction that points toward index 0. -/

/-- The while loop of _compact on a single line, direction toward the
front of the list. -/
def lineSlideU {α : Type} [DecidableEq α] : List (Option α) → Nat → Nat → List (Option α)
  | l, _, 0 => l
  | l, i, fuel + 1 =>
    if 0 < i ∧ l.getD (i - 1) none = none then
      lineSlideU ((l.set (i - 1) (l.getD i none)).set i none) (i - 1) fuel
    else l

/-- One cell visit of the compaction scan on a line, direction toward the
front of the list. -/
def lineBodyU {α : Type} [DecidableEq α] (fuel : Nat) (l : List (Option α)) (i : Nat) :
    List (Option α) :=
  if l.getD i none = none then l else lineSlideU l i fuel

/-- One full grid pass restricted to a line, direction toward the front. -/
def lineScanU {α : Type} [DecidableEq α] (fuel : Nat) (l : List (Option α)) :
    List (Option α) :=
  (List.range l.length).foldl (lineBodyU fuel) l

theorem getD_map_some_ne {α : Type} (s : List α) (j : Nat) (hj : j < s.length) :
    (s.map some).getD j none ≠ none := by
  rw [List.getD_eq_getElem _ _ (by simp [hj])]
  simp

theorem set_append_lt {α : Type} : ∀ (A B : List α) (j : Nat) (v : α), j < A.length →
    (A ++ B).set j v = A.set j v ++ B := by
  intro A
  induction A with
  | nil => intro B j v hj; simp at hj
  | cons a A2 ih =>
    intro B j v hj
    cases j with
    | zero => simp
    | succ j2 =>
      simp only [List.cons_append, List.set_cons_succ]
      rw [ih B j2 v (by simp at hj; omega)]

theorem getD_append_ge {α : Type} : ∀ (A B : List α) (j : Nat) (d : α),
    A.length ≤ j → (A ++ B).getD j d = B.getD (j - A.length) d := by
  intro A
  induction A with
  | nil => simp
  | cons a A2 ih =>
    intro B j d hj
    cases j with
    | zero => simp at hj
    | succ j2 =>
      simp only [List.cons_append, List.getD_cons_succ, List.length_cons]
      rw [ih B j2 d (by simp at hj; omega)]
      congr 1
      omega

theorem set_append_ge {α : Type} : ∀ (A B : List α) (j : Nat) (v : α),
    A.length ≤ j → (A ++ B).set j v = A ++ B.set (j - A.length) v := by
  intro A
  induction A with
  | nil => simp
  | cons a A2 ih =>
    intro B j v hj
    cases j with
    | zero => simp at hj
    | succ j2 =>
      simp only [List.cons_append, List.set_cons_succ, List.length_cons]
      rw [ih B j2 v (by simp at hj; omega)]
      rw [show j2 - A2.length = j2 + 1 - (A2.length + 1) by omega]

theorem getD_replicate_lt {α : Type} : ∀ (n j : Nat) (a d : α), j < n →
    (List.replicate n a).getD j d = a := by
  intro n
  induction n with
  | zero => intro j a d hj; omega
  | succ n ih =>
    intro j a d hj
    cases j with
    | zero => simp [List.replicate_succ]
    | succ j2 =>
      simp only [List.replicate_succ, List.getD_cons_succ]
      exact ih j2 a d (by omega)

theorem set_replicate_last {α : Type} : ∀ (k : Nat) (a v : α),
    (List.replicate (k + 1) a).set k v = List.replicate k a ++ [v] := by
  intro k
  induction k with
  | zero => intro a v; simp [List.replicate_succ]
  | succ k ih =>
    intro a v
    rw [List.replicate_succ, List.set_cons_succ, ih]
    rw [List.replicate_succ]
    simp

/-- The shape of one full slide toward the front: a tile separated from the
packed prefix by a run of empty cells lands right after the prefix. -/
theorem lineSlideU_shape {α : Type} [DecidableEq α] :
    ∀ (k fuel : Nat) (s : List α) (a : α) (rest : List (Option α)), k ≤ fuel →
    lineSlideU (s.map some ++ List.replicate k none ++ some a :: rest) (s.length + k) fuel
      = s.map some ++ some a :: List.replicate k none ++ rest := by
  intro k
  induction k with
  | zero =>
    intro fuel s a rest _
    cases fuel with
    | zero => simp [lineSlideU]
    | succ f =>
      simp only [lineSlideU]
      rw [if_neg ?_]
      · simp
      · intro hg
        obtain ⟨hpos, hnone⟩ := hg
        rw [Nat.add_zero] at hpos hnone
        rw [getD_append_lt _ _ _ _ (by simp at hpos ⊢; omega)] at hnone
        rw [getD_append_lt _ _ _ _ (by simp at hpos ⊢; omega)] at hnone
        exact getD_map_some_ne s (s.length - 1) (by omega) hnone
  | succ k ih =>
    intro fuel s a rest hfuel
    cases fuel with
    | zero => omega
    | succ f =>
      have hmaplen : (s.map some).length = s.length := by simp
      have hga : (s.map some ++ List.replicate (k + 1) none ++ some a :: rest).getD
          (s.length + (k + 1)) none = some a := by
        rw [List.append_assoc, getD_append_ge _ _ _ _ (by simp; try omega)]
        rw [getD_append_ge _ _ _ _ (by simp; try omega)]
        simp
      have hguard : (s.map some ++ List.replicate (k + 1) none ++ some a :: rest).getD
          (s.length + (k + 1) - 1) none = none := by
        rw [List.append_assoc, getD_append_ge _ _ _ _ (by simp; try omega)]
        rw [getD_append_lt _ _ _ _ (by simp; try omega)]
        rw [getD_replicate_lt _ _ _ _ (by simp; try omega)]
      simp only [lineSlideU]
      rw [if_pos ⟨by omega, hguard⟩]
      rw [hga]
      have hset1 : (s.map some ++ List.replicate (k + 1) none ++ some a :: rest).set
          (s.length + (k + 1) - 1) (some a)
          = s.map some ++ (List.replicate k none ++ some a :: some a :: rest) := by
        rw [List.append_assoc, set_append_ge _ _ _ _ (by simp; try omega)]
        congr 1
        rw [set_append_lt _ _ _ _ (by simp; try omega)]
        rw [show s.length + (k + 1) - 1 - (s.map some).length = k by simp; try omega]
        rw [set_replicate_last]
        simp
      rw [hset1]
      have hset2 : (s.map some ++ (List.replicate k none ++ some a :: some a :: rest)).set
          (s.length + (k + 1)) none
          = s.map some ++ (List.replicate k none ++ some a :: none :: rest) := by
        rw [set_append_ge _ _ _ _ (by simp; try omega)]
        congr 1
        rw [set_append_ge _ _ _ _ (by simp; try omega)]
        rw [show s.length + (k + 1) - (s.map some).length - (List.replicate k
          (none : Option α)).length = 1 by simp; try omega]
        simp
      rw [hset2]
      rw [show s.length + (k + 1) - 1 = s.length + k by omega]
      have hres := ih f s a (none :: rest) (by omega)
      rw [List.append_assoc] at hres
      rw [hres]
      rw [show List.replicate (k + 1) (none : Option α) = List.replicate k none ++ [none] from
        List.replicate_succ' k none]
      simp

theorem lineScanU_from {α : Type} [DecidableEq α] :
    ∀ (suf : List (Option α)) (fuel : Nat) (s : List α) (pad : Nat),
    pad + suf.length ≤ fuel →
    (List.range' (s.length + pad) suf.length).foldl (lineBodyU fuel)
        (s.map some ++ List.replicate pad none ++ suf)
      = (s ++ suf.filterMap id).map some
        ++ List.replicate (pad + suf.length - (suf.filterMap id).length) none := by
  intro suf
  induction suf with
  | nil =>
    intro fuel s pad _
    simp
  | cons c suf2 ih =>
    intro fuel s pad hfuel
    rw [List.length_cons, List.range'_succ, List.foldl_cons]
    have hcell : (s.map some ++ List.replicate pad none ++ c :: suf2).getD
        (s.length + pad) none = c := by
      rw [List.append_assoc, getD_append_ge _ _ _ _ (by simp)]
      rw [getD_append_ge _ _ _ _ (by simp)]
      simp
    cases c with
    | none =>
      rw [show lineBodyU fuel (s.map some ++ List.replicate pad none ++ none :: suf2)
          (s.length + pad) = s.map some ++ List.replicate pad none ++ none :: suf2 from by
        unfold lineBodyU
        rw [if_pos hcell]]
      have hre : s.map some ++ List.replicate pad none ++ none :: suf2
          = s.map some ++ List.replicate (pad + 1) none ++ suf2 := by
        rw [List.append_assoc, List.append_assoc]
        congr 1
        rw [show List.replicate (pad + 1) (none : Option α) = List.replicate pad none ++ [none]
          from List.replicate_succ' pad none]
        simp
      rw [hre]
      rw [show s.length + pad + 1 = s.length + (pad + 1) by omega]
      rw [ih fuel s (pad + 1) (by simp at hfuel ⊢; omega)]
      simp only [List.filterMap_cons]
      congr 2
      simp
      omega
    | some a =>
      rw [show lineBodyU fuel (s.map some ++ List.replicate pad none ++ some a :: suf2)
          (s.length + pad)
          = lineSlideU (s.map some ++ List.replicate pad none ++ some a :: suf2)
            (s.length + pad) fuel from by
        unfold lineBodyU
        rw [if_neg (by rw [hcell]; simp)]]
      rw [lineSlideU_shape pad fuel s a suf2 (by simp at hfuel; omega)]
      have hre : s.map some ++ some a :: List.replicate pad none ++ suf2
          = (s ++ [a]).map some ++ List.replicate pad none ++ suf2 := by
        simp
      rw [hre]
      rw [show s.length + pad + 1 = (s ++ [a]).length + pad by simp; try omega]
      rw [ih fuel (s ++ [a]) pad (by simp at hfuel ⊢; omega)]
      simp only [List.filterMap_cons, id]
      congr 2
      · simp
      · simp
        omega

/-- One scan along a line in the low-index direction fully compacts it
toward the front. -/
theorem lineScanU_compactFront {α : Type} [DecidableEq α] (fuel : Nat)
    (l : List (Option α)) (hfuel : l.length ≤ fuel) :
    lineScanU fuel l = compactFront l := by
  unfold lineScanU
  rw [List.range_eq_range']
  have := lineScanU_from l fuel [] 0 (by simpa using hfuel)
  simpa [compactFront] using this

theorem compactFront_fm {α : Type} (l : List (Option α)) :
    (compactFront l).filterMap id = l.filterMap id := by
  unfold compactFront
  rw [List.filterMap_append]
  have h1 : ((l.filterMap id).map some).filterMap id = l.filterMap id := by
    rw [List.filterMap_map]
    simp
  have h2 : (List.replicate (l.length - (l.filterMap id).length)
      (none : Option α)).filterMap id = [] := by
    simp
  rw [h1, h2, List.append_nil]

theorem compactFront_length {α : Type} (l : List (Option α)) :
    (compactFront l).length = l.length := by
  unfold compactFront
  have := List.length_filterMap_le id l
  simp
  omega

theorem compactFront_idem {α : Type} (l : List (Option α)) :
    compactFront (compactFront l) = compactFront l := by
  have h : compactFront (compactFront l)
      = ((compactFront l).filterMap id).map some
        ++ List.replicate ((compactFront l).length
          - ((compactFront l).filterMap id).length) none := rfl
  rw [h, compactFront_fm, compactFront_length]
  rfl

/-- Iterating the front scan at least once compacts the line toward the
front. -/
theorem lineScanU_iterate_compacts {α : Type} [DecidableEq α] (fuel n : Nat)
    (l : List (Option α)) (hfuel : l.length ≤ fuel) (hn : 1 ≤ n) :
    (lineScanU fuel)^[n] l = compactFront l := by
  induction n with
  | zero => omega
  | succ n ih =>
    rw [Function.iterate_succ_apply, lineScanU_compactFront fuel l hfuel]
    cases Nat.eq_zero_or_pos n with
    | inl h0 =>
      subst h0
      rfl
    | inr hpos =>
      have hfix : lineScanU fuel (compactFront l) = compactFront l := by
        rw [lineScanU_compactFront fuel (compactFront l)
          (by rw [compactFront_length]; exact hfuel)]
        exact compactFront_idem l
      calc (lineScanU fuel)^[n] (compactFront l)
          = compactFront l := Function.iterate_fixed hfix n

/- Bridge between the grid and its lines: columns and rows as lists. -/

/-- Column x of a board, as the list of its cells from y = 0 upward. -/
def colOf (b : Board) (x : Nat) : List (Option Nat) :=
  (List.range b.height).map (fun (y : Nat) => getCell b ((x : Int), (y : Int)))

/-- Row y of a board, as the list of its cells from x = 0 upward. -/
def rowOf (b : Board) (y : Nat) : List (Option Nat) :=
  (List.range b.width).map (fun (x : Nat) => getCell b ((x : Int), (y : Int)))

theorem length_colOf (b : Board) (x : Nat) : (colOf b x).length = b.height := by
  simp [colOf]

theorem length_rowOf (b : Board) (y : Nat) : (rowOf b y).length = b.width := by
  simp [rowOf]

theorem natCast_valid (b : Board) (x y : Nat) (hx : x < b.width) (hy : y < b.height) :
    isValid b ((x : Int), (y : Int)) := by
  refine ⟨by positivity, ?_, by positivity, ?_⟩ <;> simp <;> omega

theorem colOf_getD (b : Board) (x : Nat) (hwf : WF b) (hx : x < b.width) (y : Nat) :
    (colOf b x).getD y none = getCell b ((x : Int), (y : Int)) := by
  by_cases hy : y < b.height
  · unfold colOf
    rw [List.getD_eq_getElem _ _ (by simp [hy])]
    simp
  · rw [List.getD_eq_default _ _ (show (colOf b x).length ≤ y by rw [length_colOf]; omega)]
    unfold getCell
    have hxg : ((x : Int), (y : Int)).1.toNat < b.grid.length := by
      simp [hwf.1]
      omega
    have hrow : (b.grid.getD ((x : Int), (y : Int)).1.toNat []).length = b.height := by
      rw [List.getD_eq_getElem _ _ hxg]
      exact hwf.2 _ (List.getElem_mem hxg)
    rw [List.getD_eq_default _ _ (show _ ≤ ((x : Int), (y : Int)).2.toNat by
      rw [hrow]; simp; omega)]

theorem rowOf_getD (b : Board) (y : Nat) (hwf : WF b) (hy : y < b.height) (x : Nat) :
    (rowOf b y).getD x none = getCell b ((x : Int), (y : Int)) := by
  by_cases hx : x < b.width
  · unfold rowOf
    rw [List.getD_eq_getElem _ _ (by simp [hx])]
    simp
  · rw [List.getD_eq_default _ _ (show (rowOf b y).length ≤ x by rw [length_rowOf]; omega)]
    unfold getCell
    rw [List.getD_eq_default _ _ (show b.grid.length ≤ ((x : Int), (y : Int)).1.toNat by
      rw [hwf.1]; simp; omega)]
    simp

theorem colOf_setCell_self (b : Board) (x y : Nat) (v : Option Nat)
    (hwf : WF b) (hx : x < b.width) (hy : y < b.height) :
    colOf (setCell b ((x : Int), (y : Int)) v) x = (colOf b x).set y v := by
  apply List.ext_getElem
  · simp [length_colOf, height_setCell]
  · intro i h1 h2
    have h1b : i < b.height := by
      rw [length_colOf, height_setCell] at h1
      exact h1
    unfold colOf
    rw [List.getElem_map, List.getElem_set]
    simp only [List.getElem_range]
    by_cases hiy : i = y
    · subst hiy
      rw [if_pos rfl]
      exact getCell_setCell_self b _ v hwf (natCast_valid b x i hx h1b)
    · rw [if_neg (fun h => hiy h.symm)]
      rw [List.getElem_map, List.getElem_range]
      exact getCell_setCell_other b (↑x, ↑y) (↑x, ↑i) v (by positivity) (by positivity)
        (by positivity) (by positivity)
        (fun he => hiy (by have h := congrArg Prod.snd he; simp at h; exact h))

theorem colOf_setCell_other (b : Board) (p : Vec) (x2 : Nat) (v : Option Nat)
    (hp1 : 0 ≤ p.1) (hp2 : 0 ≤ p.2) (hne : p.1 ≠ (x2 : Int)) :
    colOf (setCell b p v) x2 = colOf b x2 := by
  apply List.ext_getElem
  · simp [length_colOf, height_setCell]
  · intro i h1 h2
    unfold colOf
    rw [List.getElem_map, List.getElem_map]
    simp only [List.getElem_range]
    exact getCell_setCell_other b p (↑x2, ↑i) v hp1 hp2 (by positivity) (by positivity)
      (fun he => hne (by have h := congrArg Prod.fst he; simp at h; rw [h]))

theorem rowOf_setCell_self (b : Board) (x y : Nat) (v : Option Nat)
    (hwf : WF b) (hx : x < b.width) (hy : y < b.height) :
    rowOf (setCell b ((x : Int), (y : Int)) v) y = (rowOf b y).set x v := by
  apply List.ext_getElem
  · simp [length_rowOf, width_setCell]
  · intro i h1 h2
    have h1b : i < b.width := by
      rw [length_rowOf, width_setCell] at h1
      exact h1
    unfold rowOf
    rw [List.getElem_map, List.getElem_set]
    simp only [List.getElem_range]
    by_cases hix : i = x
    · subst hix
      rw [if_pos rfl]
      exact getCell_setCell_self b _ v hwf (natCast_valid b i y h1b hy)
    · rw [if_neg (fun h => hix h.symm)]
      rw [List.getElem_map, List.getElem_range]
      exact getCell_setCell_other b (↑x, ↑y) (↑i, ↑y) v (by positivity) (by positivity)
        (by positivity) (by positivity)
        (fun he => hix (by have h := congrArg Prod.fst he; simp at h; exact h))

theorem rowOf_setCell_other (b : Board) (p : Vec) (y2 : Nat) (v : Option Nat)
    (hp1 : 0 ≤ p.1) (hp2 : 0 ≤ p.2) (hne : p.2 ≠ (y2 : Int)) :
    rowOf (setCell b p v) y2 = rowOf b y2 := by
  apply List.ext_getElem
  · simp [length_rowOf, width_setCell]
  · intro i h1 h2
    unfold rowOf
    rw [List.getElem_map, List.getElem_map]
    simp only [List.getElem_range]
    exact getCell_setCell_other b p (↑i, ↑y2) v hp1 hp2 (by positivity) (by positivity)
      (fun he => hne (by have h := congrArg Prod.snd he; simp at h; rw [h]))

theorem foldl_flatMap {α β γ : Type} (f : γ → β → γ) (g : α → List β)
    (xs : List α) (init : γ) :
    (xs.flatMap g).foldl f init = xs.foldl (fun acc x => (g x).foldl f acc) init := by
  induction xs generalizing init with
  | nil => rfl
  | cons x xs ih =>
    rw [List.flatMap_cons, List.foldl_append, List.foldl_cons]
    exact ih _

/- Slide bridges: the while loop of _compact acts on one column (for the
two vertical directions) or one row (for the two horizontal ones) exactly
as the list-level slide. -/

theorem slideFrom_colD (fuel : Nat) : ∀ (b : Board) (x y : Nat), WF b → x < b.width →
    colOf ((slideFrom b ((x : Int), (y : Int)) (0, 1) fuel).1) x
        = lineSlideD (colOf b x) y fuel
      ∧ (∀ x2 : Nat, x2 ≠ x →
        colOf ((slideFrom b ((x : Int), (y : Int)) (0, 1) fuel).1) x2 = colOf b x2) := by
  induction fuel with
  | zero => exact fun b x y _ _ => ⟨rfl, fun _ _ => rfl⟩
  | succ n ih =>
    intro b x y hwf hx
    have hnext : movePosition ((x : Int), (y : Int)) (0, 1)
        = ((x : Int), ((y + 1 : Nat) : Int)) := by
      simp [movePosition]
    have hval : isValid b ((x : Int), ((y + 1 : Nat) : Int)) ↔ y + 1 < b.height := by
      unfold isValid
      constructor
      · rintro ⟨_, _, _, h4⟩
        have h4b : ((y + 1 : Nat) : Int) < (b.height : Int) := h4
        exact_mod_cast h4b
      · intro h
        exact natCast_valid b x (y + 1) hx h
    have hcellD : getCell b ((x : Int), ((y + 1 : Nat) : Int))
        = (colOf b x).getD (y + 1) none := (colOf_getD b x hwf hx (y + 1)).symm
    simp only [slideFrom, lineSlideD, hnext]
    by_cases hg : isValid b ((x : Int), ((y + 1 : Nat) : Int)) ∧
        getCell b ((x : Int), ((y + 1 : Nat) : Int)) = none
    · rw [if_pos hg]
      rw [if_pos (show y + 1 < (colOf b x).length ∧ (colOf b x).getD (y + 1) none = none from
        ⟨by rw [length_colOf]; exact hval.mp hg.1, by rw [← hcellD]; exact hg.2⟩)]
      have hyh : y + 1 < b.height := hval.mp hg.1
      have hcurr : getCell b ((x : Int), (y : Int)) = (colOf b x).getD y none :=
        (colOf_getD b x hwf hx y).symm
      set b2 := setCell b ((x : Int), ((y + 1 : Nat) : Int))
        (getCell b ((x : Int), (y : Int))) with hb2
      have hwf2 : WF b2 := WF_setCell _ _ _ hwf
      have hcol2 : colOf b2 x = (colOf b x).set (y + 1) ((colOf b x).getD y none) := by
        rw [hb2, colOf_setCell_self b x (y + 1) _ hwf hx hyh, hcurr]
      set b1 := setCell b2 ((x : Int), (y : Int)) none with hb1
      have hwf1 : WF b1 := WF_setCell _ _ _ hwf2
      have hcol1 : colOf b1 x
          = ((colOf b x).set (y + 1) ((colOf b x).getD y none)).set y none := by
        rw [hb1, colOf_setCell_self b2 x y none hwf2 hx (by exact Nat.lt_of_succ_lt hyh), hcol2]
      obtain ⟨ihm, iho⟩ := ih b1 x (y + 1) hwf1 hx
      constructor
      · rw [ihm, hcol1]
      · intro x2 hx2
        rw [iho x2 hx2, hb1, hb2]
        rw [colOf_setCell_other _ _ x2 _ (by positivity) (by positivity)
          (by simp; omega)]
        rw [colOf_setCell_other _ _ x2 _ (by positivity) (by positivity)
          (by simp; omega)]
    · rw [if_neg hg]
      rw [if_neg (show ¬ (y + 1 < (colOf b x).length ∧ (colOf b x).getD (y + 1) none = none)
        from fun hc => hg ⟨hval.mpr (by rw [length_colOf] at hc; exact hc.1),
          by rw [hcellD]; exact hc.2⟩)]
      exact ⟨rfl, fun _ _ => rfl⟩

theorem slideFrom_colU (fuel : Nat) : ∀ (b : Board) (x y : Nat), WF b → x < b.width →
    y < b.height →
    colOf ((slideFrom b ((x : Int), (y : Int)) (0, -1) fuel).1) x
        = lineSlideU (colOf b x) y fuel
      ∧ (∀ x2 : Nat, x2 ≠ x →
        colOf ((slideFrom b ((x : Int), (y : Int)) (0, -1) fuel).1) x2 = colOf b x2) := by
  induction fuel with
  | zero => exact fun b x y _ _ _ => ⟨rfl, fun _ _ => rfl⟩
  | succ n ih =>
    intro b x y hwf hx hy
    cases y with
    | zero =>
      have hnext : movePosition ((x : Int), ((0 : Nat) : Int)) (0, -1) = ((x : Int), -1) := by
        simp [movePosition]
      simp only [slideFrom, lineSlideU, hnext]
      rw [if_neg (fun hc => by
        have := hc.1.2.2.1
        omega)]
      rw [if_neg (by omega)]
      exact ⟨rfl, fun _ _ => rfl⟩
    | succ y2 =>
      have hnext : movePosition ((x : Int), ((y2 + 1 : Nat) : Int)) (0, -1)
          = ((x : Int), ((y2 : Nat) : Int)) := by
        simp [movePosition]
      have hval : isValid b ((x : Int), ((y2 : Nat) : Int)) := by
        exact natCast_valid b x y2 hx (by omega)
      have hcellU : getCell b ((x : Int), ((y2 : Nat) : Int))
          = (colOf b x).getD y2 none := (colOf_getD b x hwf hx y2).symm
      simp only [slideFrom, lineSlideU, hnext]
      rw [show y2 + 1 - 1 = y2 from rfl]
      by_cases hg : getCell b ((x : Int), ((y2 : Nat) : Int)) = none
      · rw [if_pos ⟨hval, hg⟩]
        rw [if_pos (show 0 < y2 + 1 ∧ (colOf b x).getD y2 none = none from
          ⟨by omega, by rw [← hcellU]; exact hg⟩)]
        have hcurr : getCell b ((x : Int), ((y2 + 1 : Nat) : Int))
            = (colOf b x).getD (y2 + 1) none := (colOf_getD b x hwf hx (y2 + 1)).symm
        set b2 := setCell b ((x : Int), ((y2 : Nat) : Int))
          (getCell b ((x : Int), ((y2 + 1 : Nat) : Int))) with hb2
        have hwf2 : WF b2 := WF_setCell _ _ _ hwf
        have hcol2 : colOf b2 x = (colOf b x).set y2 ((colOf b x).getD (y2 + 1) none) := by
          rw [hb2, colOf_setCell_self b x y2 _ hwf hx (by omega), hcurr]
        set b1 := setCell b2 ((x : Int), ((y2 + 1 : Nat) : Int)) none with hb1
        have hwf1 : WF b1 := WF_setCell _ _ _ hwf2
        have hcol1 : colOf b1 x
            = ((colOf b x).set y2 ((colOf b x).getD (y2 + 1) none)).set (y2 + 1) none := by
          rw [hb1, colOf_setCell_self b2 x (y2 + 1) none hwf2 hx (by exact hy), hcol2]
        obtain ⟨ihm, iho⟩ := ih b1 x y2 hwf1 hx (by exact Nat.lt_of_succ_lt hy)
        constructor
        · rw [ihm, hcol1]
        · intro x2 hx2
          rw [iho x2 hx2, hb1, hb2]
          rw [colOf_setCell_other _ _ x2 _ (by positivity) (by positivity)
            (by simp; omega)]
          rw [colOf_setCell_other _ _ x2 _ (by positivity) (by positivity)
            (by simp; omega)]
      · rw [if_neg (fun hc => hg hc.2)]
        rw [if_neg (fun hc => hg (by rw [hcellU]; exact hc.2))]
        exact ⟨rfl, fun _ _ => rfl⟩

theorem slideFrom_rowD (fuel : Nat) : ∀ (b : Board) (x y : Nat), WF b → y < b.height →
    rowOf ((slideFrom b ((x : Int), (y : Int)) (1, 0) fuel).1) y
        = lineSlideD (rowOf b y) x fuel
      ∧ (∀ y2 : Nat, y2 ≠ y →
        rowOf ((slideFrom b ((x : Int), (y : Int)) (1, 0) fuel).1) y2 = rowOf b y2) := by
  induction fuel with
  | zero => exact fun b x y _ _ => ⟨rfl, fun _ _ => rfl⟩
  | succ n ih =>
    intro b x y hwf hy
    have hnext : movePosition ((x : Int), (y : Int)) (1, 0)
        = (((x + 1 : Nat) : Int), (y : Int)) := by
      simp [movePosition]
    have hval : isValid b (((x + 1 : Nat) : Int), (y : Int)) ↔ x + 1 < b.width := by
      constructor
      · rintro ⟨_, h2, _, _⟩
        have h2b : ((x + 1 : Nat) : Int) < (b.width : Int) := h2
        exact_mod_cast h2b
      · intro h
        exact natCast_valid b (x + 1) y h hy
    have hcellD : getCell b (((x + 1 : Nat) : Int), (y : Int))
        = (rowOf b y).getD (x + 1) none := (rowOf_getD b y hwf hy (x + 1)).symm
    simp only [slideFrom, lineSlideD, hnext]
    by_cases hg : isValid b (((x + 1 : Nat) : Int), (y : Int)) ∧
        getCell b (((x + 1 : Nat) : Int), (y : Int)) = none
    · rw [if_pos hg]
      rw [if_pos (show x + 1 < (rowOf b y).length ∧ (rowOf b y).getD (x + 1) none = none from
        ⟨by rw [length_rowOf]; exact hval.mp hg.1, by rw [← hcellD]; exact hg.2⟩)]
      have hxw : x + 1 < b.width := hval.mp hg.1
      have hcurr : getCell b ((x : Int), (y : Int)) = (rowOf b y).getD x none :=
        (rowOf_getD b y hwf hy x).symm
      set b2 := setCell b (((x + 1 : Nat) : Int), (y : Int))
        (getCell b ((x : Int), (y : Int))) with hb2
      have hwf2 : WF b2 := WF_setCell _ _ _ hwf
      have hrow2 : rowOf b2 y = (rowOf b y).set (x + 1) ((rowOf b y).getD x none) := by
        rw [hb2, rowOf_setCell_self b (x + 1) y _ hwf hxw hy, hcurr]
      set b1 := setCell b2 ((x : Int), (y : Int)) none with hb1
      have hwf1 : WF b1 := WF_setCell _ _ _ hwf2
      have hrow1 : rowOf b1 y
          = ((rowOf b y).set (x + 1) ((rowOf b y).getD x none)).set x none := by
        rw [hb1, rowOf_setCell_self b2 x y none hwf2 (by exact Nat.lt_of_succ_lt hxw)
          (by exact hy), hrow2]
      obtain ⟨ihm, iho⟩ := ih b1 (x + 1) y hwf1 (by exact hy)
      constructor
      · rw [ihm, hrow1]
      · intro y2 hy2
        rw [iho y2 hy2, hb1, hb2]
        rw [rowOf_setCell_other _ _ y2 _ (by positivity) (by positivity)
          (by simp; omega)]
        rw [rowOf_setCell_other _ _ y2 _ (by positivity) (by positivity)
          (by simp; omega)]
    · rw [if_neg hg]
      rw [if_neg (show ¬ (x + 1 < (rowOf b y).length ∧ (rowOf b y).getD (x + 1) none = none)
        from fun hc => hg ⟨hval.mpr (by rw [length_rowOf] at hc; exact hc.1),
          by rw [hcellD]; exact hc.2⟩)]
      exact ⟨rfl, fun _ _ => rfl⟩

theorem slideFrom_rowU (fuel : Nat) : ∀ (b : Board) (x y : Nat), WF b → x < b.width →
    y < b.height →
    rowOf ((slideFrom b ((x : Int), (y : Int)) (-1, 0) fuel).1) y
        = lineSlideU (rowOf b y) x fuel
      ∧ (∀ y2 : Nat, y2 ≠ y →
        rowOf ((slideFrom b ((x : Int), (y : Int)) (-1, 0) fuel).1) y2 = rowOf b y2) := by
  induction fuel with
  | zero => exact fun b x y _ _ _ => ⟨rfl, fun _ _ => rfl⟩
  | succ n ih =>
    intro b x y hwf hx hy
    cases x with
    | zero =>
      have hnext : movePosition (((0 : Nat) : Int), (y : Int)) (-1, 0) = (-1, (y : Int)) := by
        simp [movePosition]
      simp only [slideFrom, lineSlideU, hnext]
      rw [if_neg (fun hc => by
        have := hc.1.1
        omega)]
      rw [if_neg (by omega)]
      exact ⟨rfl, fun _ _ => rfl⟩
    | succ x2 =>
      have hnext : movePosition (((x2 + 1 : Nat) : Int), (y : Int)) (-1, 0)
          = (((x2 : Nat) : Int), (y : Int)) := by
        simp [movePosition]
      have hval : isValid b (((x2 : Nat) : Int), (y : Int)) := by
        exact natCast_valid b x2 y (by omega) hy
      have hcellU : getCell b (((x2 : Nat) : Int), (y : Int))
          = (rowOf b y).getD x2 none := (rowOf_getD b y hwf hy x2).symm
      simp only [slideFrom, lineSlideU, hnext]
      rw [show x2 + 1 - 1 = x2 from rfl]
      by_cases hg : getCell b (((x2 : Nat) : Int), (y : Int)) = none
      · rw [if_pos ⟨hval, hg⟩]
        rw [if_pos (show 0 < x2 + 1 ∧ (rowOf b y).getD x2 none = none from
          ⟨by omega, by rw [← hcellU]; exact hg⟩)]
        have hcurr : getCell b (((x2 + 1 : Nat) : Int), (y : Int))
            = (rowOf b y).getD (x2 + 1) none := (rowOf_getD b y hwf hy (x2 + 1)).symm
        set b2 := setCell b (((x2 : Nat) : Int), (y : Int))
          (getCell b (((x2 + 1 : Nat) : Int), (y : Int))) with hb2
        have hwf2 : WF b2 := WF_setCell _ _ _ hwf
        have hrow2 : rowOf b2 y = (rowOf b y).set x2 ((rowOf b y).getD (x2 + 1) none) := by
          rw [hb2, rowOf_setCell_self b x2 y _ hwf (by omega) hy, hcurr]
        set b1 := setCell b2 (((x2 + 1 : Nat) : Int), (y : Int)) none with hb1
        have hwf1 : WF b1 := WF_setCell _ _ _ hwf2
        have hrow1 : rowOf b1 y
            = ((rowOf b y).set x2 ((rowOf b y).getD (x2 + 1) none)).set (x2 + 1) none := by
          rw [hb1, rowOf_setCell_self b2 (x2 + 1) y none hwf2 (by exact hx) (by exact hy),
            hrow2]
        obtain ⟨ihm, iho⟩ := ih b1 x2 y hwf1 (by exact Nat.lt_of_succ_lt hx) (by exact hy)
        constructor
        · rw [ihm, hrow1]
        · intro y2 hy2
          rw [iho y2 hy2, hb1, hb2]
          rw [rowOf_setCell_other _ _ y2 _ (by positivity) (by positivity)
            (by simp; omega)]
          rw [rowOf_setCell_other _ _ y2 _ (by positivity) (by positivity)
            (by simp; omega)]
      · rw [if_neg (fun hc => hg hc.2)]
        rw [if_neg (fun hc => hg (by rw [hcellU]; exact hc.2))]
        exact ⟨rfl, fun _ _ => rfl⟩

/-- The body of the x-major cell scan of _compact, one cell visit: skip an
empty cell, otherwise run the inner while loop from it. -/
def passBody (d : Vec) (bc : Board × Bool) (p : Vec) : Board × Bool :=
  if getCell bc.1 p = none then bc
  else
    let r := slideFrom bc.1 p d (bc.1.width + bc.1.height)
    (r.1, bc.2 || r.2)

theorem gridPass_eq (b : Board) (d : Vec) :
    gridPass b d = (allCells b).foldl (passBody d) (b, false) := rfl

theorem passBody_colD (W H x : Nat) (hx : x < W) : ∀ (ys : List Nat) (bc : Board × Bool),
    WF bc.1 → bc.1.width = W → bc.1.height = H →
    colOf ((ys.foldl (fun bc (y : Nat) => passBody (0, 1) bc ((x : Int), (y : Int))) bc).1) x
        = ys.foldl (lineBodyD (W + H)) (colOf bc.1 x)
      ∧ (∀ x2 : Nat, x2 ≠ x →
        colOf ((ys.foldl (fun bc (y : Nat) => passBody (0, 1) bc ((x : Int), (y : Int))) bc).1)
          x2 = colOf bc.1 x2)
      ∧ WF ((ys.foldl (fun bc (y : Nat) => passBody (0, 1) bc ((x : Int), (y : Int))) bc).1)
      ∧ ((ys.foldl (fun bc (y : Nat) => passBody (0, 1) bc ((x : Int), (y : Int))) bc).1).width
          = W
      ∧ ((ys.foldl (fun bc (y : Nat) => passBody (0, 1) bc ((x : Int), (y : Int))) bc).1).height
          = H := by
  intro ys
  induction ys with
  | nil => exact fun bc hwf hW hH => ⟨rfl, fun _ _ => rfl, hwf, hW, hH⟩
  | cons y ys ih =>
    intro bc hwf hW hH
    rw [List.foldl_cons]
    have hxw : x < bc.1.width := by omega
    have hcol : (colOf bc.1 x).getD y none = getCell bc.1 ((x : Int), (y : Int)) :=
      colOf_getD bc.1 x hwf hxw y
    by_cases hg : getCell bc.1 ((x : Int), (y : Int)) = none
    · have hstep : passBody (0, 1) bc ((x : Int), (y : Int)) = bc := by
        simp [passBody, hg]
      rw [hstep]
      obtain ⟨h1, h2, h3, h4, h5⟩ := ih bc hwf hW hH
      refine ⟨?_, h2, h3, h4, h5⟩
      rw [h1, List.foldl_cons]
      have hb : lineBodyD (W + H) (colOf bc.1 x) y = colOf bc.1 x := by
        unfold lineBodyD
        rw [if_pos (by rw [hcol]; exact hg)]
      rw [hb]
    · have hstep : passBody (0, 1) bc ((x : Int), (y : Int))
          = ((slideFrom bc.1 ((x : Int), (y : Int)) (0, 1) (bc.1.width + bc.1.height)).1,
             bc.2 || (slideFrom bc.1 ((x : Int), (y : Int)) (0, 1)
               (bc.1.width + bc.1.height)).2) := by
        simp only [passBody]
        rw [if_neg hg]
      rw [hstep]
      set b2 := (slideFrom bc.1 ((x : Int), (y : Int)) (0, 1) (bc.1.width + bc.1.height)).1
        with hb2
      have hfuel : bc.1.width + bc.1.height = W + H := by omega
      obtain ⟨hcm, hco⟩ := slideFrom_colD (bc.1.width + bc.1.height) bc.1 x y hwf hxw
      have hwf2 : WF b2 := slideFrom_WF _ _ _ _ hwf
      have hd2 := slideFrom_dims (0, 1) (bc.1.width + bc.1.height) bc.1 ((x : Int), (y : Int))
      obtain ⟨h1, h2, h3, h4, h5⟩ :=
        ih (b2, bc.2 || (slideFrom bc.1 ((x : Int), (y : Int)) (0, 1)
          (bc.1.width + bc.1.height)).2) hwf2 (by rw [← hW]; exact hd2.1)
          (by rw [← hH]; exact hd2.2)
      refine ⟨?_, ?_, h3, h4, h5⟩
      · rw [h1]
        dsimp only
        rw [← hb2] at hcm
        rw [hcm, hfuel, List.foldl_cons]
        have hb : lineBodyD (W + H) (colOf bc.1 x) y
            = lineSlideD (colOf bc.1 x) y (W + H) := by
          unfold lineBodyD
          rw [if_neg (by rw [hcol]; exact hg)]
        rw [hb]
      · intro x2 hx2
        rw [h2 x2 hx2]
        dsimp only
        rw [← hb2] at hco
        rw [hco x2 hx2]

theorem passBody_colU (W H x : Nat) (hx : x < W) : ∀ (ys : List Nat) (bc : Board × Bool),
    WF bc.1 → bc.1.width = W → bc.1.height = H → (∀ y ∈ ys, y < H) →
    colOf ((ys.foldl (fun bc (y : Nat) => passBody (0, -1) bc ((x : Int), (y : Int))) bc).1) x
        = ys.foldl (lineBodyU (W + H)) (colOf bc.1 x)
      ∧ (∀ x2 : Nat, x2 ≠ x →
        colOf ((ys.foldl (fun bc (y : Nat) => passBody (0, -1) bc ((x : Int), (y : Int))) bc).1)
          x2 = colOf bc.1 x2)
      ∧ WF ((ys.foldl (fun bc (y : Nat) => passBody (0, -1) bc ((x : Int), (y : Int))) bc).1)
      ∧ ((ys.foldl (fun bc (y : Nat) => passBody (0, -1) bc ((x : Int), (y : Int))) bc).1).width
          = W
      ∧ ((ys.foldl (fun bc (y : Nat) => passBody (0, -1) bc ((x : Int), (y : Int))) bc).1).height
          = H := by
  intro ys
  induction ys with
  | nil => exact fun bc hwf hW hH _ => ⟨rfl, fun _ _ => rfl, hwf, hW, hH⟩
  | cons y ys ih =>
    intro bc hwf hW hH hys
    rw [List.foldl_cons]
    have hxw : x < bc.1.width := by omega
    have hyh : y < bc.1.height := by
      have := hys y (List.mem_cons_self _ _)
      omega
    have hcol : (colOf bc.1 x).getD y none = getCell bc.1 ((x : Int), (y : Int)) :=
      colOf_getD bc.1 x hwf hxw y
    by_cases hg : getCell bc.1 ((x : Int), (y : Int)) = none
    · have hstep : passBody (0, -1) bc ((x : Int), (y : Int)) = bc := by
        simp [passBody, hg]
      rw [hstep]
      obtain ⟨h1, h2, h3, h4, h5⟩ := ih bc hwf hW hH (fun y2 hy2 => hys y2 (by simp [hy2]))
      refine ⟨?_, h2, h3, h4, h5⟩
      rw [h1, List.foldl_cons]
      have hb : lineBodyU (W + H) (colOf bc.1 x) y = colOf bc.1 x := by
        unfold lineBodyU
        rw [if_pos (by rw [hcol]; exact hg)]
      rw [hb]
    · have hstep : passBody (0, -1) bc ((x : Int), (y : Int))
          = ((slideFrom bc.1 ((x : Int), (y : Int)) (0, -1) (bc.1.width + bc.1.height)).1,
             bc.2 || (slideFrom bc.1 ((x : Int), (y : Int)) (0, -1)
               (bc.1.width + bc.1.height)).2) := by
        simp only [passBody]
        rw [if_neg hg]
      rw [hstep]
      set b2 := (slideFrom bc.1 ((x : Int), (y : Int)) (0, -1) (bc.1.width + bc.1.height)).1
        with hb2
      have hfuel : bc.1.width + bc.1.height = W + H := by omega
      obtain ⟨hcm, hco⟩ := slideFrom_colU (bc.1.width + bc.1.height) bc.1 x y hwf hxw hyh
      have hwf2 : WF b2 := slideFrom_WF _ _ _ _ hwf
      have hd2 := slideFrom_dims (0, -1) (bc.1.width + bc.1.height) bc.1 ((x : Int), (y : Int))
      obtain ⟨h1, h2, h3, h4, h5⟩ :=
        ih (b2, bc.2 || (slideFrom bc.1 ((x : Int), (y : Int)) (0, -1)
          (bc.1.width + bc.1.height)).2) hwf2 (by rw [← hW]; exact hd2.1)
          (by rw [← hH]; exact hd2.2) (fun y2 hy2 => hys y2 (by simp [hy2]))
      refine ⟨?_, ?_, h3, h4, h5⟩
      · rw [h1]
        dsimp only
        rw [← hb2] at hcm
        rw [hcm, hfuel, List.foldl_cons]
        have hb : lineBodyU (W + H) (colOf bc.1 x) y
            = lineSlideU (colOf bc.1 x) y (W + H) := by
          unfold lineBodyU
          rw [if_neg (by rw [hcol]; exact hg)]
        rw [hb]
      · intro x2 hx2
        rw [h2 x2 hx2]
        dsimp only
        rw [← hb2] at hco
        rw [hco x2 hx2]

/-- The x-major double loop of one _compact pass, with the inner
coordinate made explicit: visit the cells of each listed column in order. -/
def passCols (d : Vec) (H : Nat) (xs : List Nat) (bc : Board × Bool) : Board × Bool :=
  xs.foldl (fun bc (x : Nat) =>
    (List.range H).foldl (fun bc (y : Nat) => passBody d bc ((x : Int), (y : Int))) bc) bc

theorem gridPass_passCols (b : Board) (d : Vec) :
    gridPass b d = passCols d b.height (List.range b.width) (b, false) := by
  rw [gridPass_eq]
  unfold allCells passCols
  rw [foldl_flatMap]
  simp only [List.foldl_map]

theorem passCols_cons (d : Vec) (H x : Nat) (xs : List Nat) (bc : Board × Bool) :
    passCols d H (x :: xs) bc = passCols d H xs
      ((List.range H).foldl (fun bc (y : Nat) => passBody d bc ((x : Int), (y : Int))) bc) := by
  unfold passCols
  rw [List.foldl_cons]

theorem passCols_colD (W H : Nat) : ∀ (xs : List Nat) (bc : Board × Bool),
    WF bc.1 → bc.1.width = W → bc.1.height = H → xs.Nodup → (∀ x ∈ xs, x < W) →
    (∀ x ∈ xs, colOf (passCols (0, 1) H xs bc).1 x = lineScanD (W + H) (colOf bc.1 x))
      ∧ (∀ x2 : Nat, x2 ∉ xs → colOf (passCols (0, 1) H xs bc).1 x2 = colOf bc.1 x2)
      ∧ WF (passCols (0, 1) H xs bc).1
      ∧ (passCols (0, 1) H xs bc).1.width = W ∧ (passCols (0, 1) H xs bc).1.height = H := by
  intro xs
  induction xs with
  | nil => exact fun bc hwf hW hH _ _ => ⟨fun x hx => absurd hx (List.not_mem_nil x),
      fun _ _ => rfl, hwf, hW, hH⟩
  | cons x xs ih =>
    intro bc hwf hW hH hnd hlt
    have hx : x < W := hlt x (List.mem_cons_self _ _)
    rw [passCols_cons]
    set bc2 := (List.range H).foldl
      (fun bc (y : Nat) => passBody (0, 1) bc ((x : Int), (y : Int))) bc with hbc2
    obtain ⟨b1, b2, b3, b4, b5⟩ := passBody_colD W H x hx (List.range H) bc hwf hW hH
    rw [← hbc2] at b1 b2 b3 b4 b5
    have hscan : lineScanD (W + H) (colOf bc.1 x)
        = (List.range H).foldl (lineBodyD (W + H)) (colOf bc.1 x) := by
      unfold lineScanD
      rw [length_colOf, hH]
    have hxnot : x ∉ xs := (List.nodup_cons.mp hnd).1
    obtain ⟨h1, h2, h3, h4, h5⟩ := ih bc2 b3 b4 b5 (List.nodup_cons.mp hnd).2
      (fun x2 hx2 => hlt x2 (by simp [hx2]))
    refine ⟨?_, ?_, h3, h4, h5⟩
    · intro x3 hx3
      rcases List.mem_cons.mp hx3 with hh | ht
      · subst hh
        rw [h2 x3 hxnot, b1, hscan]
      · rw [h1 x3 ht, b2 x3 (fun he => hxnot (he ▸ ht))]
    · intro x2 hx2
      rw [h2 x2 (fun hm => hx2 (List.mem_cons_of_mem _ hm)),
        b2 x2 (fun he => hx2 (he ▸ List.mem_cons_self _ _))]

theorem passCols_colU (W H : Nat) : ∀ (xs : List Nat) (bc : Board × Bool),
    WF bc.1 → bc.1.width = W → bc.1.height = H → xs.Nodup → (∀ x ∈ xs, x < W) →
    (∀ x ∈ xs, colOf (passCols (0, -1) H xs bc).1 x = lineScanU (W + H) (colOf bc.1 x))
      ∧ (∀ x2 : Nat, x2 ∉ xs → colOf (passCols (0, -1) H xs bc).1 x2 = colOf bc.1 x2)
      ∧ WF (passCols (0, -1) H xs bc).1
      ∧ (passCols (0, -1) H xs bc).1.width = W ∧ (passCols (0, -1) H xs bc).1.height = H := by
  intro xs
  induction xs with
  | nil => exact fun bc hwf hW hH _ _ => ⟨fun x hx => absurd hx (List.not_mem_nil x),
      fun _ _ => rfl, hwf, hW, hH⟩
  | cons x xs ih =>
    intro bc hwf hW hH hnd hlt
    have hx : x < W := hlt x (List.mem_cons_self _ _)
    rw [passCols_cons]
    set bc2 := (List.range H).foldl
      (fun bc (y : Nat) => passBody (0, -1) bc ((x : Int), (y : Int))) bc with hbc2
    obtain ⟨b1, b2, b3, b4, b5⟩ := passBody_colU W H x hx (List.range H) bc hwf hW hH
      (fun y hy => List.mem_range.mp hy)
    rw [← hbc2] at b1 b2 b3 b4 b5
    have hscan : lineScanU (W + H) (colOf bc.1 x)
        = (List.range H).foldl (lineBodyU (W + H)) (colOf bc.1 x) := by
      unfold lineScanU
      rw [length_colOf, hH]
    have hxnot : x ∉ xs := (List.nodup_cons.mp hnd).1
    obtain ⟨h1, h2, h3, h4, h5⟩ := ih bc2 b3 b4 b5 (List.nodup_cons.mp hnd).2
      (fun x2 hx2 => hlt x2 (by simp [hx2]))
    refine ⟨?_, ?_, h3, h4, h5⟩
    · intro x3 hx3
      rcases List.mem_cons.mp hx3 with hh | ht
      · subst hh
        rw [h2 x3 hxnot, b1, hscan]
      · rw [h1 x3 ht, b2 x3 (fun he => hxnot (he ▸ ht))]
    · intro x2 hx2
      rw [h2 x2 (fun hm => hx2 (List.mem_cons_of_mem _ hm)),
        b2 x2 (fun he => hx2 (he ▸ List.mem_cons_self _ _))]

/-- One full _compact pass in the down direction scans every column as the
line-level scan toward the end of the column list. -/
theorem gridPass_colD_scan (b : Board) (hwf : WF b) (x : Nat) (hx : x < b.width) :
    colOf (gridPass b (0, 1)).1 x = lineScanD (b.width + b.height) (colOf b x) := by
  rw [gridPass_passCols]
  obtain ⟨h1, _, _, _, _⟩ := passCols_colD b.width b.height (List.range b.width)
    (b, false) hwf rfl rfl (List.nodup_range _) (fun x2 hx2 => List.mem_range.mp hx2)
  exact h1 x (List.mem_range.mpr hx)

/-- One full _compact pass in the up direction scans every column as the
line-level scan toward the front of the column list. -/
theorem gridPass_colU_scan (b : Board) (hwf : WF b) (x : Nat) (hx : x < b.width) :
    colOf (gridPass b (0, -1)).1 x = lineScanU (b.width + b.height) (colOf b x) := by
  rw [gridPass_passCols]
  obtain ⟨h1, _, _, _, _⟩ := passCols_colU b.width b.height (List.range b.width)
    (b, false) hwf rfl rfl (List.nodup_range _) (fun x2 hx2 => List.mem_range.mp hx2)
  exact h1 x (List.mem_range.mpr hx)

/-- The outer fixed-point loop of _compact, as an iteration count. -/
def compactFold (d : Vec) (n : Nat) (bc : Board × Bool) : Board × Bool :=
  (List.range n).foldl
    (fun bc (_ : Nat) => ((gridPass bc.1 d).1, bc.2 || (gridPass bc.1 d).2)) bc

theorem compact_eq_fold (b : Board) (d : Vec) :
    compact b d = compactFold d (max b.width b.height) (b, false) := rfl

theorem compactFold_succ (d : Vec) (n : Nat) (bc : Board × Bool) :
    compactFold d (n + 1) bc
      = ((gridPass (compactFold d n bc).1 d).1,
         (compactFold d n bc).2 || (gridPass (compactFold d n bc).1 d).2) := by
  unfold compactFold
  rw [List.range_succ, List.foldl_append, List.foldl_cons, List.foldl_nil]

theorem compactFold_WF (d : Vec) : ∀ (n : Nat) (bc : Board × Bool), WF bc.1 →
    WF (compactFold d n bc).1
      ∧ (compactFold d n bc).1.width = bc.1.width
      ∧ (compactFold d n bc).1.height = bc.1.height := by
  intro n
  induction n with
  | zero => exact fun bc hwf => ⟨hwf, rfl, rfl⟩
  | succ n ih =>
    intro bc hwf
    obtain ⟨h1, h2, h3⟩ := ih bc hwf
    rw [compactFold_succ]
    exact ⟨gridPass_WF _ _ h1, by rw [(gridPass_dims _ _).1, h2],
      by rw [(gridPass_dims _ _).2, h3]⟩

theorem compactFold_colD (W H : Nat) : ∀ (n : Nat) (bc : Board × Bool),
    WF bc.1 → bc.1.width = W → bc.1.height = H → ∀ x : Nat, x < W →
    colOf (compactFold (0, 1) n bc).1 x = (lineScanD (W + H))^[n] (colOf bc.1 x) := by
  intro n
  induction n with
  | zero => exact fun bc _ _ _ x _ => rfl
  | succ n ih =>
    intro bc hwf hW hH x hx
    obtain ⟨w1, w2, w3⟩ := compactFold_WF (0, 1) n bc hwf
    rw [compactFold_succ, Function.iterate_succ_apply']
    have hscan := gridPass_colD_scan (compactFold (0, 1) n bc).1 w1 x (by omega)
    rw [hscan, ih bc hwf hW hH x hx, w2, w3, hW, hH]

theorem compactFold_colU (W H : Nat) : ∀ (n : Nat) (bc : Board × Bool),
    WF bc.1 → bc.1.width = W → bc.1.height = H → ∀ x : Nat, x < W →
    colOf (compactFold (0, -1) n bc).1 x = (lineScanU (W + H))^[n] (colOf bc.1 x) := by
  intro n
  induction n with
  | zero => exact fun bc _ _ _ x _ => rfl
  | succ n ih =>
    intro bc hwf hW hH x hx
    obtain ⟨w1, w2, w3⟩ := compactFold_WF (0, -1) n bc hwf
    rw [compactFold_succ, Function.iterate_succ_apply']
    have hscan := gridPass_colU_scan (compactFold (0, -1) n bc).1 w1 x (by omega)
    rw [hscan, ih bc hwf hW hH x hx, w2, w3, hW, hH]

/-- _compact in the down direction packs every column against the high end. -/
theorem compact_colD (b : Board) (hwf : WF b) (x : Nat) (hx : x < b.width) :
    colOf (compact b (0, 1)).1 x = compactBack (colOf b x) := by
  rw [compact_eq_fold]
  rw [compactFold_colD b.width b.height (max b.width b.height) (b, false) hwf rfl rfl x hx]
  exact lineScanD_iterate_compacts _ _ _ (by rw [length_colOf]; dsimp only; omega)
    (by rw [length_colOf]; exact le_max_right _ _)

/-- _compact in the up direction packs every column against the front. -/
theorem compact_colU (b : Board) (hwf : WF b) (x : Nat) (hx : x < b.width) :
    colOf (compact b (0, -1)).1 x = compactFront (colOf b x) := by
  rw [compact_eq_fold]
  rw [compactFold_colU b.width b.height (max b.width b.height) (b, false) hwf rfl rfl x hx]
  exact lineScanU_iterate_compacts _ _ _ (by rw [length_colOf]; dsimp only; omega) (by omega)

theorem passBody_rowD (W H x : Nat) : ∀ (ys : List Nat) (bc : Board × Bool),
    WF bc.1 → bc.1.width = W → bc.1.height = H → ys.Nodup → (∀ y ∈ ys, y < H) →
    (∀ y ∈ ys,
        rowOf ((ys.foldl (fun bc (y : Nat) => passBody (1, 0) bc ((x : Int), (y : Int))) bc).1)
          y = lineBodyD (W + H) (rowOf bc.1 y) x)
      ∧ (∀ y2 : Nat, y2 ∉ ys →
        rowOf ((ys.foldl (fun bc (y : Nat) => passBody (1, 0) bc ((x : Int), (y : Int))) bc).1)
          y2 = rowOf bc.1 y2)
      ∧ WF ((ys.foldl (fun bc (y : Nat) => passBody (1, 0) bc ((x : Int), (y : Int))) bc).1)
      ∧ ((ys.foldl (fun bc (y : Nat) => passBody (1, 0) bc ((x : Int), (y : Int))) bc).1).width
          = W
      ∧ ((ys.foldl (fun bc (y : Nat) => passBody (1, 0) bc ((x : Int), (y : Int))) bc).1).height
          = H := by
  intro ys
  induction ys with
  | nil => exact fun bc hwf hW hH _ _ => ⟨fun y hy => absurd hy (List.not_mem_nil y),
      fun _ _ => rfl, hwf, hW, hH⟩
  | cons y ys ih =>
    intro bc hwf hW hH hnd hlt
    have hyh : y < bc.1.height := by
      have := hlt y (List.mem_cons_self _ _)
      omega
    have hynot : y ∉ ys := (List.nodup_cons.mp hnd).1
    rw [List.foldl_cons]
    have hrow : (rowOf bc.1 y).getD x none = getCell bc.1 ((x : Int), (y : Int)) :=
      rowOf_getD bc.1 y hwf hyh x
    by_cases hg : getCell bc.1 ((x : Int), (y : Int)) = none
    · have hstep : passBody (1, 0) bc ((x : Int), (y : Int)) = bc := by
        simp [passBody, hg]
      rw [hstep]
      obtain ⟨h1, h2, h3, h4, h5⟩ := ih bc hwf hW hH (List.nodup_cons.mp hnd).2
        (fun y2 hy2 => hlt y2 (by simp [hy2]))
      refine ⟨?_, ?_, h3, h4, h5⟩
      · intro y3 hy3
        rcases List.mem_cons.mp hy3 with hh | ht
        · subst hh
          rw [h2 y3 hynot]
          unfold lineBodyD
          rw [if_pos (by rw [hrow]; exact hg)]
        · exact h1 y3 ht
      · intro y2 hy2
        exact h2 y2 (fun hm => hy2 (List.mem_cons_of_mem _ hm))
    · have hstep : passBody (1, 0) bc ((x : Int), (y : Int))
          = ((slideFrom bc.1 ((x : Int), (y : Int)) (1, 0) (bc.1.width + bc.1.height)).1,
             bc.2 || (slideFrom bc.1 ((x : Int), (y : Int)) (1, 0)
               (bc.1.width + bc.1.height)).2) := by
        simp only [passBody]
        rw [if_neg hg]
      rw [hstep]
      set b2 := (slideFrom bc.1 ((x : Int), (y : Int)) (1, 0) (bc.1.width + bc.1.height)).1
        with hb2
      have hfuel : bc.1.width + bc.1.height = W + H := by omega
      obtain ⟨hrm, hro⟩ := slideFrom_rowD (bc.1.width + bc.1.height) bc.1 x y hwf hyh
      have hwf2 : WF b2 := slideFrom_WF _ _ _ _ hwf
      have hd2 := slideFrom_dims (1, 0) (bc.1.width + bc.1.height) bc.1 ((x : Int), (y : Int))
      rw [← hb2] at hrm hro
      obtain ⟨h1, h2, h3, h4, h5⟩ :=
        ih (b2, bc.2 || (slideFrom bc.1 ((x : Int), (y : Int)) (1, 0)
          (bc.1.width + bc.1.height)).2) hwf2 (by rw [← hW]; exact hd2.1)
          (by rw [← hH]; exact hd2.2) (List.nodup_cons.mp hnd).2
          (fun y2 hy2 => hlt y2 (by simp [hy2]))
      refine ⟨?_, ?_, h3, h4, h5⟩
      · intro y3 hy3
        rcases List.mem_cons.mp hy3 with hh | ht
        · subst hh
          rw [h2 y3 hynot]
          dsimp only
          rw [hrm, hfuel]
          unfold lineBodyD
          rw [if_neg (by rw [hrow]; exact hg)]
        · rw [h1 y3 ht]
          dsimp only
          rw [hro y3 (fun he => hynot (he ▸ ht))]
      · intro y2 hy2
        rw [h2 y2 (fun hm => hy2 (List.mem_cons_of_mem _ hm))]
        dsimp only
        rw [hro y2 (fun he => hy2 (he ▸ List.mem_cons_self _ _))]

theorem passBody_rowU (W H x : Nat) (hx : x < W) : ∀ (ys : List Nat) (bc : Board × Bool),
    WF bc.1 → bc.1.width = W → bc.1.height = H → ys.Nodup → (∀ y ∈ ys, y < H) →
    (∀ y ∈ ys,
        rowOf ((ys.foldl (fun bc (y : Nat) => passBody (-1, 0) bc ((x : Int), (y : Int))) bc).1)
          y = lineBodyU (W + H) (rowOf bc.1 y) x)
      ∧ (∀ y2 : Nat, y2 ∉ ys →
        rowOf ((ys.foldl (fun bc (y : Nat) => passBody (-1, 0) bc ((x : Int), (y : Int))) bc).1)
          y2 = rowOf bc.1 y2)
      ∧ WF ((ys.foldl (fun bc (y : Nat) => passBody (-1, 0) bc ((x : Int), (y : Int))) bc).1)
      ∧ ((ys.foldl (fun bc (y : Nat) => passBody (-1, 0) bc ((x : Int), (y : Int))) bc).1).width
          = W
      ∧ ((ys.foldl (fun bc (y : Nat) => passBody (-1, 0) bc ((x : Int), (y : Int))) bc).1).height
          = H := by
  intro ys
  induction ys with
  | nil => exact fun bc hwf hW hH _ _ => ⟨fun y hy => absurd hy (List.not_mem_nil y),
      fun _ _ => rfl, hwf, hW, hH⟩
  | cons y ys ih =>
    intro bc hwf hW hH hnd hlt
    have hyh : y < bc.1.height := by
      have := hlt y (List.mem_cons_self _ _)
      omega
    have hxw : x < bc.1.width := by omega
    have hynot : y ∉ ys := (List.nodup_cons.mp hnd).1
    rw [List.foldl_cons]
    have hrow : (rowOf bc.1 y).getD x none = getCell bc.1 ((x : Int), (y : Int)) :=
      rowOf_getD bc.1 y hwf hyh x
    by_cases hg : getCell bc.1 ((x : Int), (y : Int)) = none
    · have hstep : passBody (-1, 0) bc ((x : Int), (y : Int)) = bc := by
        simp [passBody, hg]
      rw [hstep]
      obtain ⟨h1, h2, h3, h4, h5⟩ := ih bc hwf hW hH (List.nodup_cons.mp hnd).2
        (fun y2 hy2 => hlt y2 (by simp [hy2]))
      refine ⟨?_, ?_, h3, h4, h5⟩
      · intro y3 hy3
        rcases List.mem_cons.mp hy3 with hh | ht
        · subst hh
          rw [h2 y3 hynot]
          unfold lineBodyU
          rw [if_pos (by rw [hrow]; exact hg)]
        · exact h1 y3 ht
      · intro y2 hy2
        exact h2 y2 (fun hm => hy2 (List.mem_cons_of_mem _ hm))
    · have hstep : passBody (-1, 0) bc ((x : Int), (y : Int))
          = ((slideFrom bc.1 ((x : Int), (y : Int)) (-1, 0) (bc.1.width + bc.1.height)).1,
             bc.2 || (slideFrom bc.1 ((x : Int), (y : Int)) (-1, 0)
               (bc.1.width + bc.1.height)).2) := by
        simp only [passBody]
        rw [if_neg hg]
      rw [hstep]
      set b2 := (slideFrom bc.1 ((x : Int), (y : Int)) (-1, 0) (bc.1.width + bc.1.height)).1
        with hb2
      have hfuel : bc.1.width + bc.1.height = W + H := by omega
      obtain ⟨hrm, hro⟩ := slideFrom_rowU (bc.1.width + bc.1.height) bc.1 x y hwf hxw hyh
      have hwf2 : WF b2 := slideFrom_WF _ _ _ _ hwf
      have hd2 := slideFrom_dims (-1, 0) (bc.1.width + bc.1.height) bc.1 ((x : Int), (y : Int))
      rw [← hb2] at hrm hro
      obtain ⟨h1, h2, h3, h4, h5⟩ :=
        ih (b2, bc.2 || (slideFrom bc.1 ((x : Int), (y : Int)) (-1, 0)
          (bc.1.width + bc.1.height)).2) hwf2 (by rw [← hW]; exact hd2.1)
          (by rw [← hH]; exact hd2.2) (List.nodup_cons.mp hnd).2
          (fun y2 hy2 => hlt y2 (by simp [hy2]))
      refine ⟨?_, ?_, h3, h4, h5⟩
      · intro y3 hy3
        rcases List.mem_cons.mp hy3 with hh | ht
        · subst hh
          rw [h2 y3 hynot]
          dsimp only
          rw [hrm, hfuel]
          unfold lineBodyU
          rw [if_neg (by rw [hrow]; exact hg)]
        · rw [h1 y3 ht]
          dsimp only
          rw [hro y3 (fun he => hynot (he ▸ ht))]
      · intro y2 hy2
        rw [h2 y2 (fun hm => hy2 (List.mem_cons_of_mem _ hm))]
        dsimp only
        rw [hro y2 (fun he => hy2 (he ▸ List.mem_cons_self _ _))]

theorem passCols_rowD (W H : Nat) : ∀ (xs : List Nat) (bc : Board × Bool),
    WF bc.1 → bc.1.width = W → bc.1.height = H →
    (∀ y : Nat, y < H → rowOf (passCols (1, 0) H xs bc).1 y
        = xs.foldl (lineBodyD (W + H)) (rowOf bc.1 y))
      ∧ WF (passCols (1, 0) H xs bc).1
      ∧ (passCols (1, 0) H xs bc).1.width = W ∧ (passCols (1, 0) H xs bc).1.height = H := by
  intro xs
  induction xs with
  | nil => exact fun bc hwf hW hH => ⟨fun _ _ => rfl, hwf, hW, hH⟩
  | cons x xs ih =>
    intro bc hwf hW hH
    rw [passCols_cons]
    set bc2 := (List.range H).foldl
      (fun bc (y : Nat) => passBody (1, 0) bc ((x : Int), (y : Int))) bc with hbc2
    obtain ⟨b1, b2, b3, b4, b5⟩ := passBody_rowD W H x (List.range H) bc hwf hW hH
      (List.nodup_range _) (fun y hy => List.mem_range.mp hy)
    rw [← hbc2] at b1 b2 b3 b4 b5
    obtain ⟨h1, h2, h3, h4⟩ := ih bc2 b3 b4 b5
    refine ⟨?_, h2, h3, h4⟩
    intro y hy
    rw [h1 y hy, b1 y (List.mem_range.mpr hy), List.foldl_cons]

theorem passCols_rowU (W H : Nat) : ∀ (xs : List Nat) (bc : Board × Bool),
    WF bc.1 → bc.1.width = W → bc.1.height = H → (∀ x ∈ xs, x < W) →
    (∀ y : Nat, y < H → rowOf (passCols (-1, 0) H xs bc).1 y
        = xs.foldl (lineBodyU (W + H)) (rowOf bc.1 y))
      ∧ WF (passCols (-1, 0) H xs bc).1
      ∧ (passCols (-1, 0) H xs bc).1.width = W ∧ (passCols (-1, 0) H xs bc).1.height = H := by
  intro xs
  induction xs with
  | nil => exact fun bc hwf hW hH _ => ⟨fun _ _ => rfl, hwf, hW, hH⟩
  | cons x xs ih =>
    intro bc hwf hW hH hlt
    rw [passCols_cons]
    set bc2 := (List.range H).foldl
      (fun bc (y : Nat) => passBody (-1, 0) bc ((x : Int), (y : Int))) bc with hbc2
    obtain ⟨b1, b2, b3, b4, b5⟩ := passBody_rowU W H x (hlt x (List.mem_cons_self _ _))
      (List.range H) bc hwf hW hH (List.nodup_range _) (fun y hy => List.mem_range.mp hy)
    rw [← hbc2] at b1 b2 b3 b4 b5
    obtain ⟨h1, h2, h3, h4⟩ := ih bc2 b3 b4 b5 (fun x2 hx2 => hlt x2 (by simp [hx2]))
    refine ⟨?_, h2, h3, h4⟩
    intro y hy
    rw [h1 y hy, b1 y (List.mem_range.mpr hy), List.foldl_cons]

/-- One full _compact pass in the right direction scans every row as the
line-level scan toward the end of the row list. -/
theorem gridPass_rowD_scan (b : Board) (hwf : WF b) (y : Nat) (hy : y < b.height) :
    rowOf (gridPass b (1, 0)).1 y = lineScanD (b.width + b.height) (rowOf b y) := by
  rw [gridPass_passCols]
  obtain ⟨h1, _, _, _⟩ := passCols_rowD b.width b.height (List.range b.width)
    (b, false) hwf rfl rfl
  rw [h1 y hy]
  unfold lineScanD
  rw [length_rowOf]

/-- One full _compact pass in the left direction scans every row as the
line-level scan toward the front of the row list. -/
theorem gridPass_rowU_scan (b : Board) (hwf : WF b) (y : Nat) (hy : y < b.height) :
    rowOf (gridPass b (-1, 0)).1 y = lineScanU (b.width + b.height) (rowOf b y) := by
  rw [gridPass_passCols]
  obtain ⟨h1, _, _, _⟩ := passCols_rowU b.width b.height (List.range b.width)
    (b, false) hwf rfl rfl (fun x hx => List.mem_range.mp hx)
  rw [h1 y hy]
  unfold lineScanU
  rw [length_rowOf]

theorem compactFold_rowD (W H : Nat) : ∀ (n : Nat) (bc : Board × Bool),
    WF bc.1 → bc.1.width = W → bc.1.height = H → ∀ y : Nat, y < H →
    rowOf (compactFold (1, 0) n bc).1 y = (lineScanD (W + H))^[n] (rowOf bc.1 y) := by
  intro n
  induction n with
  | zero => exact fun bc _ _ _ y _ => rfl
  | succ n ih =>
    intro bc hwf hW hH y hy
    obtain ⟨w1, w2, w3⟩ := compactFold_WF (1, 0) n bc hwf
    rw [compactFold_succ, Function.iterate_succ_apply']
    have hscan := gridPass_rowD_scan (compactFold (1, 0) n bc).1 w1 y (by omega)
    rw [hscan, ih bc hwf hW hH y hy, w2, w3, hW, hH]

theorem compactFold_rowU (W H : Nat) : ∀ (n : Nat) (bc : Board × Bool),
    WF bc.1 → bc.1.width = W → bc.1.height = H → ∀ y : Nat, y < H →
    rowOf (compactFold (-1, 0) n bc).1 y = (lineScanU (W + H))^[n] (rowOf bc.1 y) := by
  intro n
  induction n with
  | zero => exact fun bc _ _ _ y _ => rfl
  | succ n ih =>
    intro bc hwf hW hH y hy
    obtain ⟨w1, w2, w3⟩ := compactFold_WF (-1, 0) n bc hwf
    rw [compactFold_succ, Function.iterate_succ_apply']
    have hscan := gridPass_rowU_scan (compactFold (-1, 0) n bc).1 w1 y (by omega)
    rw [hscan, ih bc hwf hW hH y hy, w2, w3, hW, hH]

/-- _compact in the right direction packs every row against the high end. -/
theorem compact_rowD (b : Board) (hwf : WF b) (y : Nat) (hy : y < b.height) :
    rowOf (compact b (1, 0)).1 y = compactBack (rowOf b y) := by
  rw [compact_eq_fold]
  rw [compactFold_rowD b.width b.height (max b.width b.height) (b, false) hwf rfl rfl y hy]
  exact lineScanD_iterate_compacts _ _ _ (by rw [length_rowOf]; dsimp only; omega)
    (by rw [length_rowOf]; exact le_max_left _ _)

/-- _compact in the left direction packs every row against the front. -/
theorem compact_rowU (b : Board) (hwf : WF b) (y : Nat) (hy : y < b.height) :
    rowOf (compact b (-1, 0)).1 y = compactFront (rowOf b y) := by
  rw [compact_eq_fold]
  rw [compactFold_rowU b.width b.height (max b.width b.height) (b, false) hwf rfl rfl y hy]
  exact lineScanU_iterate_compacts _ _ _ (by rw [length_rowOf]; dsimp only; omega) (by omega)

/- Shape of the compacted lines: the occupied cells form a contiguous block
against the destination edge. -/

theorem compactBack_length {α : Type} (l : List (Option α)) :
    (compactBack l).length = l.length := by
  unfold compactBack
  have := List.length_filterMap_le id l
  simp
  omega

theorem getD_replicate_self {α : Type} : ∀ (n j : Nat) (a : α),
    (List.replicate n a).getD j a = a := by
  intro n
  induction n with
  | zero => intro j a; rfl
  | succ n ih =>
    intro j a
    cases j with
    | zero => rfl
    | succ j =>
      rw [List.replicate_succ, List.getD_cons_succ]
      exact ih j a

theorem compactBack_filled {α : Type} (l : List (Option α)) (j : Nat)
    (hj : j + 1 < l.length) (hocc : (compactBack l).getD j none ≠ none) :
    (compactBack l).getD (j + 1) none ≠ none := by
  have hm := List.length_filterMap_le id l
  set k := l.length - (l.filterMap id).length with hk
  have hkrep : (List.replicate k (none : Option α)).length = k := List.length_replicate _ _
  have hjk : k ≤ j := by
    by_contra hlt
    push_neg at hlt
    apply hocc
    unfold compactBack
    rw [getD_append_lt _ _ _ _ (by rw [hkrep]; exact hlt)]
    exact getD_replicate_self k j none
  unfold compactBack
  rw [getD_append_ge _ _ _ _ (by rw [hkrep]; omega), hkrep]
  exact getD_map_some_ne _ _ (by omega)

theorem compactFront_filled {α : Type} (l : List (Option α)) (j : Nat)
    (hocc : (compactFront l).getD (j + 1) none ≠ none) :
    (compactFront l).getD j none ≠ none := by
  have hjm : j + 1 < ((l.filterMap id).map some).length := by
    by_contra hge
    push_neg at hge
    apply hocc
    unfold compactFront
    rw [getD_append_ge _ _ _ _ (by exact hge)]
    exact getD_replicate_self _ _ none
  unfold compactFront
  rw [getD_append_lt _ _ _ _ (by omega)]
  exact getD_map_some_ne _ _ (by simp at hjm; omega)

/-- After _compact, no occupied cell has a valid empty neighbor one step
along the direction: every tile is blocked by the edge or another tile. -/
theorem compact_compacted (b : Board) (d : Vec) (hd : UnitDir d) (hwf : WF b) :
    Compacted (compact b d).1 d := by
  have hwf2 : WF (compact b d).1 := compact_WF b d hwf
  have hdims := compact_dims b d
  rintro ⟨px, py⟩ hp hocc hval
  have hpv := (mem_allCells _ _).mp hp
  obtain ⟨hp1, hp2, hp3, hp4⟩ := hpv
  obtain ⟨x, rfl⟩ : ∃ x : Nat, px = (x : Int) := ⟨px.toNat, (Int.toNat_of_nonneg hp1).symm⟩
  obtain ⟨y, rfl⟩ : ∃ y : Nat, py = (y : Int) := ⟨py.toNat, (Int.toNat_of_nonneg hp3).symm⟩
  dsimp only at hp2 hp4
  have hx : x < b.width := by
    rw [hdims.1] at hp2
    exact_mod_cast hp2
  have hy : y < b.height := by
    rw [hdims.2] at hp4
    exact_mod_cast hp4
  rcases hd with h | h | h | h <;> subst h
  · -- up: (0, -1)
    simp only [movePosition, add_zero] at hval ⊢
    have hy1 : 1 ≤ y := by
      obtain ⟨hv1, hv2, hv3, hv4⟩ := hval
      simp at hv3
      omega
    obtain ⟨y2, rfl⟩ : ∃ y2 : Nat, y = y2 + 1 := ⟨y - 1, by omega⟩
    have hcast : ((y2 + 1 : Nat) : Int) + -1 = ((y2 : Nat) : Int) := by push_cast; ring
    rw [hcast]
    have hcol := compact_colU b hwf x hx
    have hg1 : getCell (compact b (0, -1)).1 ((x : Int), ((y2 + 1 : Nat) : Int))
        = (compactFront (colOf b x)).getD (y2 + 1) none := by
      rw [← hcol]
      exact (colOf_getD _ x hwf2 (by omega) (y2 + 1)).symm
    have hg2 : getCell (compact b (0, -1)).1 ((x : Int), ((y2 : Nat) : Int))
        = (compactFront (colOf b x)).getD y2 none := by
      rw [← hcol]
      exact (colOf_getD _ x hwf2 (by omega) y2).symm
    rw [hg2]
    rw [hg1] at hocc
    exact compactFront_filled (colOf b x) y2 hocc
  · -- down: (0, 1)
    simp only [movePosition, add_zero] at hval ⊢
    have hyn : y + 1 < b.height := by
      obtain ⟨hv1, hv2, hv3, hv4⟩ := hval
      rw [hdims.2] at hv4
      have : ((y : Int) + 1) < (b.height : Int) := hv4
      exact_mod_cast this
    have hcast : ((y : Nat) : Int) + 1 = ((y + 1 : Nat) : Int) := by push_cast; ring
    rw [hcast]
    have hcol := compact_colD b hwf x hx
    have hg1 : getCell (compact b (0, 1)).1 ((x : Int), ((y : Nat) : Int))
        = (compactBack (colOf b x)).getD y none := by
      rw [← hcol]
      exact (colOf_getD _ x hwf2 (by omega) y).symm
    have hg2 : getCell (compact b (0, 1)).1 ((x : Int), ((y + 1 : Nat) : Int))
        = (compactBack (colOf b x)).getD (y + 1) none := by
      rw [← hcol]
      exact (colOf_getD _ x hwf2 (by omega) (y + 1)).symm
    rw [hg2]
    rw [hg1] at hocc
    exact compactBack_filled (colOf b x) y (by rw [length_colOf]; exact hyn) hocc
  · -- left: (-1, 0)
    simp only [movePosition, add_zero] at hval ⊢
    have hx1 : 1 ≤ x := by
      obtain ⟨hv1, hv2, hv3, hv4⟩ := hval
      simp at hv1
      omega
    obtain ⟨x2, rfl⟩ : ∃ x2 : Nat, x = x2 + 1 := ⟨x - 1, by omega⟩
    have hcast : ((x2 + 1 : Nat) : Int) + -1 = ((x2 : Nat) : Int) := by push_cast; ring
    rw [hcast]
    have hrow := compact_rowU b hwf y hy
    have hg1 : getCell (compact b (-1, 0)).1 (((x2 + 1 : Nat) : Int), (y : Int))
        = (compactFront (rowOf b y)).getD (x2 + 1) none := by
      rw [← hrow]
      exact (rowOf_getD _ y hwf2 (by omega) (x2 + 1)).symm
    have hg2 : getCell (compact b (-1, 0)).1 (((x2 : Nat) : Int), (y : Int))
        = (compactFront (rowOf b y)).getD x2 none := by
      rw [← hrow]
      exact (rowOf_getD _ y hwf2 (by omega) x2).symm
    rw [hg2]
    rw [hg1] at hocc
    exact compactFront_filled (rowOf b y) x2 hocc
  · -- right: (1, 0)
    simp only [movePosition, add_zero] at hval ⊢
    have hxn : x + 1 < b.width := by
      obtain ⟨hv1, hv2, hv3, hv4⟩ := hval
      rw [hdims.1] at hv2
      have : ((x : Int) + 1) < (b.width : Int) := hv2
      exact_mod_cast this
    have hcast : ((x : Nat) : Int) + 1 = ((x + 1 : Nat) : Int) := by push_cast; ring
    rw [hcast]
    have hrow := compact_rowD b hwf y hy
    have hg1 : getCell (compact b (1, 0)).1 (((x : Nat) : Int), (y : Int))
        = (compactBack (rowOf b y)).getD x none := by
      rw [← hrow]
      exact (rowOf_getD _ y hwf2 (by omega) x).symm
    have hg2 : getCell (compact b (1, 0)).1 (((x + 1 : Nat) : Int), (y : Int))
        = (compactBack (rowOf b y)).getD (x + 1) none := by
      rw [← hrow]
      exact (rowOf_getD _ y hwf2 (by omega) (x + 1)).symm
    rw [hg2]
    rw [hg1] at hocc
    exact compactBack_filled (rowOf b y) x (by rw [length_rowOf]; exact hxn) hocc

/-- C6: for every well-formed board and each of the four unit directions,
after _compact(direction) every tile has slid as far as possible toward the
direction: no occupied cell has a valid empty neighbor one step along the
direction (each tile is blocked by the board edge or another tile), the
result is a fixed point of the max(width,height)-pass loop (one more run of
_compact changes nothing and reports no movement), and the returned flag is
true if and only if at least one tile moved (the grid changed). -/
theorem c6_compact_postcondition (b : Board) (d : Vec) (hd : UnitDir d) (hwf : WF b) :
    Compacted (compact b d).1 d
      ∧ compact (compact b d).1 d = ((compact b d).1, false)
      ∧ ((compact b d).2 = true ↔ (compact b d).1 ≠ b) :=
  ⟨compact_compacted b d hd hwf,
   compact_id _ d (compact_compacted b d hd hwf),
   compact_flag_iff b d hd hwf⟩

/-- Witness for C6 on a concrete board and direction. -/
theorem c6_compact_postcondition_witness :
    UnitDir (-1, 0) ∧ WF row2222 ∧
      (Compacted (compact row2222 (-1, 0)).1 (-1, 0)
        ∧ compact (compact row2222 (-1, 0)).1 (-1, 0) = ((compact row2222 (-1, 0)).1, false)
        ∧ ((compact row2222 (-1, 0)).2 = true ↔ (compact row2222 (-1, 0)).1 ≠ row2222)) :=
  ⟨by decide, by decide, c6_compact_postcondition row2222 (-1, 0) (by decide) (by decide)⟩

/- Ghost instrumentation for the merge pass: each cell carries a merge
counter.  A successful merge stores at the surviving cell the total number
of merges reflected in its value (its own counter, plus the absorbed
tile's, plus one).  Tiles never move during the merge pass, so a cell's
counter is its tile's counter. -/

/-- The positions reachable from `s` by stepping `inv` zero or more times. -/
def onRay (s inv q : Vec) : Prop :=
  ∃ k : Nat, q = (s.1 + k * inv.1, s.2 + k * inv.2)

/-- walkLine with a ghost merge counter per cell. -/
def gWalkLine (b : Board) (c : Vec → Nat) (curr inverse : Vec) :
    Nat → Board × (Vec → Nat)
  | 0 => (b, c)
  | fuel + 1 =>
    let next := movePosition curr inverse
    if isValid b next then
      match getCell b curr, getCell b next with
      | some v, some w =>
        let m := tileMerge v w
        if m.2 then
          gWalkLine (setCell (setCell b curr (some m.1)) next none)
            (fun q => if q = curr then c curr + c next + 1 else c q) next inverse fuel
        else gWalkLine b c next inverse fuel
      | _, _ => gWalkLine b c next inverse fuel
    else (b, c)

/-- mergePhase with ghost merge counters, all starting at zero. -/
def gMergePhase (b : Board) (direction : Vec) : Board × (Vec → Nat) :=
  (findStarts b direction).foldl
    (fun bc s => gWalkLine bc.1 bc.2 s (-direction.1, -direction.2)
      (bc.1.width + bc.1.height))
    (b, fun _ => 0)

theorem gWalkLine_fst (inv : Vec) (fuel : Nat) : ∀ (b : Board) (c : Vec → Nat)
    (curr : Vec) (ch : Bool),
    (gWalkLine b c curr inv fuel).1 = (walkLine b curr inv ch fuel).1 := by
  induction fuel with
  | zero => exact fun b c curr ch => rfl
  | succ n ih =>
    intro b c curr ch
    simp only [gWalkLine, walkLine]
    split
    · split
      · split
        · exact ih _ _ _ _
        · exact ih _ _ _ _
      · exact ih _ _ _ _
    · rfl

theorem gMergePhase_fst (b : Board) (d : Vec) (ch : Bool) :
    (gMergePhase b d).1 = (mergePhase b d ch).1 := by
  unfold gMergePhase mergePhase
  suffices h : ∀ (L : List Vec) (b2 : Board) (c : Vec → Nat) (ch2 : Bool),
      (L.foldl (fun bc s => gWalkLine bc.1 bc.2 s (-d.1, -d.2)
        (bc.1.width + bc.1.height)) (b2, c)).1
      = (L.foldl (fun bc s => walkLine bc.1 s (-d.1, -d.2) bc.2
        (bc.1.width + bc.1.height)) (b2, ch2)).1 from h _ b _ ch
  intro L
  induction L with
  | nil => exact fun b2 c ch2 => rfl
  | cons s L ih =>
    intro b2 c ch2
    rw [List.foldl_cons, List.foldl_cons]
    have he := gWalkLine_fst (-d.1, -d.2) (b2.width + b2.height) b2 c s ch2
    have hg : gWalkLine b2 c s (-d.1, -d.2) (b2.width + b2.height)
        = ((walkLine b2 s (-d.1, -d.2) ch2 (b2.width + b2.height)).1,
           (gWalkLine b2 c s (-d.1, -d.2) (b2.width + b2.height)).2) := by
      rw [← he]
    rw [hg]
    exact ih _ _ _

theorem onRay_self (s inv : Vec) : onRay s inv s := by
  refine ⟨0, ?_⟩
  cases s
  simp

theorem onRay_step (s inv q : Vec) (h : onRay (movePosition s inv) inv q) :
    onRay s inv q := by
  obtain ⟨k, hk⟩ := h
  refine ⟨k + 1, ?_⟩
  rw [hk]
  simp only [movePosition]
  rw [Prod.mk.injEq]
  constructor <;> (push_cast; ring)

theorem ray_point_ne (inv : Vec) (hinv : UnitDir inv) (p : Vec) (k : Nat) :
    (p.1 + ((k + 1 : Nat) : Int) * inv.1, p.2 + ((k + 1 : Nat) : Int) * inv.2) ≠ p := by
  rcases hinv with h | h | h | h <;> subst h <;>
    (intro hc
     rw [Prod.mk.injEq] at hc
     obtain ⟨h1, h2⟩ := hc
     push_cast at h1 h2
     omega)

theorem gWalkLine_counts (inv : Vec) (hinv : UnitDir inv) (fuel : Nat) :
    ∀ (b : Board) (c : Vec → Nat) (curr : Vec),
    (∀ q, c q ≤ 1) → (∀ k : Nat, c (curr.1 + k * inv.1, curr.2 + k * inv.2) = 0) →
    (∀ q, (gWalkLine b c curr inv fuel).2 q ≤ 1)
      ∧ (∀ q, ¬ onRay curr inv q → (gWalkLine b c curr inv fuel).2 q = c q) := by
  induction fuel with
  | zero => exact fun b c curr h1 _ => ⟨h1, fun _ _ => rfl⟩
  | succ n ih =>
    intro b c curr h1 hray
    have hc0 : c curr = 0 := by
      have := hray 0
      cases curr
      simpa using this
    have hraynext : ∀ (c2 : Vec → Nat),
        (∀ k : Nat, c2 (curr.1 + k * inv.1, curr.2 + k * inv.2) = 0) →
        ∀ k : Nat, c2 ((movePosition curr inv).1 + k * inv.1,
          (movePosition curr inv).2 + k * inv.2) = 0 := by
      intro c2 hr2 k
      have hpt : ((movePosition curr inv).1 + k * inv.1, (movePosition curr inv).2 + k * inv.2)
          = (curr.1 + ((k + 1 : Nat) : Int) * inv.1, curr.2 + ((k + 1 : Nat) : Int) * inv.2) := by
        simp only [movePosition]
        rw [Prod.mk.injEq]
        constructor <;> (push_cast; ring)
      rw [hpt]
      exact hr2 (k + 1)
    have hframe : ∀ q, ¬ onRay curr inv q → ¬ onRay (movePosition curr inv) inv q :=
      fun q hq hq2 => hq (onRay_step curr inv q hq2)
    simp only [gWalkLine]
    split
    · split
      · rename_i v w hv hw
        split
        · -- merge branch: bump the counter at curr
          rename_i hm
          have hcn : c (movePosition curr inv) = 0 := by
            have := hray 1
            simp only [movePosition]
            simpa using this
          set c2 := fun q => if q = curr then c curr + c (movePosition curr inv) + 1 else c q
            with hc2
          have h1b : ∀ q, c2 q ≤ 1 := by
            intro q
            rw [hc2]
            dsimp only
            split
            · omega
            · exact h1 q
          have hrayb : ∀ k : Nat,
              c2 ((movePosition curr inv).1 + k * inv.1,
                (movePosition curr inv).2 + k * inv.2) = 0 := by
            intro k
            have hpt : ((movePosition curr inv).1 + k * inv.1,
                (movePosition curr inv).2 + k * inv.2)
                = (curr.1 + ((k + 1 : Nat) : Int) * inv.1,
                   curr.2 + ((k + 1 : Nat) : Int) * inv.2) := by
              simp only [movePosition]
              rw [Prod.mk.injEq]
              constructor <;> (push_cast; ring)
            rw [hpt, hc2]
            dsimp only
            rw [if_neg (ray_point_ne inv hinv curr k)]
            exact hray (k + 1)
          obtain ⟨g1, g2⟩ := ih _ c2 (movePosition curr inv) h1b hrayb
          refine ⟨g1, ?_⟩
          intro q hq
          rw [g2 q (hframe q hq), hc2]
          dsimp only
          rw [if_neg (fun he => hq (by rw [he]; exact onRay_self curr inv))]
        · -- equal-values check failed: advance
          obtain ⟨g1, g2⟩ := ih b c (movePosition curr inv) h1 (hraynext c hray)
          exact ⟨g1, fun q hq => g2 q (hframe q hq)⟩
      · -- an empty cell: advance
        obtain ⟨g1, g2⟩ := ih b c (movePosition curr inv) h1 (hraynext c hray)
        exact ⟨g1, fun q hq => g2 q (hframe q hq)⟩
    · exact ⟨h1, fun _ _ => rfl⟩

theorem onRay_fst (s inv q : Vec) (h0 : inv.1 = 0) (h : onRay s inv q) : q.1 = s.1 := by
  obtain ⟨k, hk⟩ := h
  rw [hk]
  simp [h0]

theorem onRay_snd (s inv q : Vec) (h0 : inv.2 = 0) (h : onRay s inv q) : q.2 = s.2 := by
  obtain ⟨k, hk⟩ := h
  rw [hk]
  simp [h0]

/-- The walked lines start at distinct cells of an edge and never cross:
positions on distinct start rays are distinct. -/
theorem findStarts_rays (b : Board) (d : Vec) (hd : UnitDir d) :
    (findStarts b d).Pairwise
      (fun s1 s2 => ∀ q : Vec, onRay s2 (-d.1, -d.2) q → ¬ onRay s1 (-d.1, -d.2) q) := by
  rcases hd with h | h | h | h <;> subst h
  · -- d = (0, -1), vertical rays: the first coordinate is constant on a ray
    simp only [findStarts]
    rw [if_pos (by norm_num)]
    rw [List.pairwise_map]
    refine List.Pairwise.imp ?_ (List.nodup_range b.width)
    intro x1 x2 hne q h2 h1
    have e2 := onRay_fst _ _ _ (by norm_num) h2
    have e1 := onRay_fst _ _ _ (by norm_num) h1
    dsimp only at e1 e2
    rw [e2] at e1
    exact hne (by exact_mod_cast e1.symm)
  · -- d = (0, 1)
    simp only [findStarts]
    rw [if_pos (by norm_num)]
    rw [List.pairwise_map]
    refine List.Pairwise.imp ?_ (List.nodup_range b.width)
    intro x1 x2 hne q h2 h1
    have e2 := onRay_fst _ _ _ (by norm_num) h2
    have e1 := onRay_fst _ _ _ (by norm_num) h1
    dsimp only at e1 e2
    rw [e2] at e1
    exact hne (by exact_mod_cast e1.symm)
  · -- d = (-1, 0), horizontal rays: the second coordinate is constant
    simp only [findStarts]
    rw [if_neg (by norm_num), if_pos (by norm_num)]
    rw [List.pairwise_map]
    refine List.Pairwise.imp ?_ (List.nodup_range b.height)
    intro y1 y2 hne q h2 h1
    have e2 := onRay_snd _ _ _ (by norm_num) h2
    have e1 := onRay_snd _ _ _ (by norm_num) h1
    dsimp only at e1 e2
    rw [e2] at e1
    exact hne (by exact_mod_cast e1.symm)
  · -- d = (1, 0)
    simp only [findStarts]
    rw [if_neg (by norm_num), if_pos (by norm_num)]
    rw [List.pairwise_map]
    refine List.Pairwise.imp ?_ (List.nodup_range b.height)
    intro y1 y2 hne q h2 h1
    have e2 := onRay_snd _ _ _ (by norm_num) h2
    have e1 := onRay_snd _ _ _ (by norm_num) h1
    dsimp only at e1 e2
    rw [e2] at e1
    exact hne (by exact_mod_cast e1.symm)

/-- After the instrumented merge pass every cell's merge counter is at most
one: no tile's value reflects two merges from the same pass. -/
theorem gMergePhase_counts (b : Board) (d : Vec) (hd : UnitDir d) :
    ∀ q : Vec, (gMergePhase b d).2 q ≤ 1 := by
  have hinv : UnitDir (-d.1, -d.2) := by
    rcases hd with h | h | h | h <;> subst h <;> decide
  unfold gMergePhase
  suffices h : ∀ (L : List Vec),
      L.Pairwise (fun s1 s2 => ∀ q : Vec,
        onRay s2 (-d.1, -d.2) q → ¬ onRay s1 (-d.1, -d.2) q) →
      ∀ (bc : Board × (Vec → Nat)), (∀ q, bc.2 q ≤ 1) →
      (∀ s ∈ L, ∀ k : Nat, bc.2 (s.1 + k * -d.1, s.2 + k * -d.2) = 0) →
      ∀ q, (L.foldl (fun bc s => gWalkLine bc.1 bc.2 s (-d.1, -d.2)
        (bc.1.width + bc.1.height)) bc).2 q ≤ 1 from
    h (findStarts b d) (findStarts_rays b d hd) (b, fun _ => 0)
      (fun _ => by norm_num) (fun _ _ _ => rfl)
  intro L
  induction L with
  | nil => exact fun _ bc h1 _ q => h1 q
  | cons s L ih =>
    intro hpw bc h1 hray
    rw [List.foldl_cons]
    obtain ⟨hhead, htail⟩ := List.pairwise_cons.mp hpw
    obtain ⟨g1, g2⟩ := gWalkLine_counts (-d.1, -d.2) hinv (bc.1.width + bc.1.height)
      bc.1 bc.2 s h1 (hray s (List.mem_cons_self _ _))
    refine ih htail _ g1 ?_
    intro s2 hs2 k
    have hnot : ¬ onRay s (-d.1, -d.2) (s2.1 + k * -d.1, s2.2 + k * -d.2) :=
      hhead s2 hs2 _ ⟨k, rfl⟩
    rw [g2 _ hnot]
    exact hray s2 (List.mem_cons_of_mem _ hs2) k

/- Compaction only moves tiles: for every value, the number of cells
holding a tile of that value is unchanged by _compact.  A merge would
change these counts, so no merge happens during compaction. -/

/-- The number of cells of `b` holding a tile of value `v`. -/
def countValue (v : Nat) (b : Board) : Nat :=
  ((allCells b).filter (fun p => decide (getCell b p = some v))).length

theorem countValue_setCell (v : Nat) (b : Board) (q : Vec) (w : Option Nat)
    (hwf : WF b) (hq : isValid b q) :
    countValue v (setCell b q w) + (if getCell b q = some v then 1 else 0)
      = countValue v b + (if w = some v then 1 else 0) := by
  unfold countValue
  rw [allCells_setCell]
  rw [← List.countP_eq_length_filter, ← List.countP_eq_length_filter]
  have := countP_pointwise (allCells b) (allCells_nodup b) q
    ((mem_allCells b q).mpr hq)
    (fun p => decide (getCell (setCell b q w) p = some v))
    (fun p => decide (getCell b p = some v))
    (fun p hp hne => by
      have hpv := (mem_allCells b p).mp hp
      dsimp only
      rw [getCell_setCell_other b q p w hq.1 hq.2.2.1 hpv.1 hpv.2.2.1 hne])
  dsimp only at this
  rw [getCell_setCell_self b q w hwf hq] at this
  simp only [decide_eq_true_eq] at this
  omega

theorem slideFrom_countValue (v : Nat) (d : Vec) (hd : d ≠ (0, 0)) (fuel : Nat) :
    ∀ (b : Board) (curr : Vec), WF b → isValid b curr →
    countValue v (slideFrom b curr d fuel).1 = countValue v b := by
  induction fuel with
  | zero => exact fun b curr _ _ => rfl
  | succ n ih =>
    intro b curr hwf hcv
    simp only [slideFrom]
    split
    · rename_i hg
      obtain ⟨hnv, hne⟩ := hg
      set next := movePosition curr d with hnext
      have hcurr_ne : curr ≠ next := fun h => movePosition_ne curr d hd h.symm
      have h1 := countValue_setCell v b next (getCell b curr) hwf hnv
      rw [hne] at h1
      simp only [reduceCtorEq, if_false] at h1
      set b2 := setCell b next (getCell b curr) with hb2
      have hwf2 : WF b2 := WF_setCell _ _ _ hwf
      have hv2 : isValid b2 curr := by rw [isValid_setCell]; exact hcv
      have h2 := countValue_setCell v b2 curr none hwf2 hv2
      have hgb2 : getCell b2 curr = getCell b curr := by
        rw [hb2]
        exact getCell_setCell_other b next curr _ hnv.1 hnv.2.2.1 hcv.1 hcv.2.2.1 hcurr_ne
      rw [hgb2] at h2
      simp only [reduceCtorEq, if_false] at h2
      have hrec := ih (setCell b2 curr none) next
        (WF_setCell _ _ _ hwf2) (by rw [isValid_setCell, isValid_setCell]; exact hnv)
      rw [hrec]
      omega
    · rfl

theorem gridPass_countValue (v : Nat) (b : Board) (d : Vec) (hd : d ≠ (0, 0)) (hwf : WF b) :
    countValue v (gridPass b d).1 = countValue v b := by
  unfold gridPass
  refine (foldl_preserve _ _ _ (fun (bc : Board × Bool) =>
    bc.1.width = b.width ∧ bc.1.height = b.height ∧
    WF bc.1 ∧ countValue v bc.1 = countValue v b) ⟨rfl, rfl, hwf, rfl⟩ ?_).2.2.2
  intro acc p hmem hp
  dsimp only
  split
  · exact hp
  · refine ⟨(slideFrom_dims d _ _ _).1.trans hp.1, (slideFrom_dims d _ _ _).2.trans hp.2.1,
      slideFrom_WF d _ _ _ hp.2.2.1, ?_⟩
    rw [slideFrom_countValue v d hd _ _ _ hp.2.2.1 ?_, hp.2.2.2]
    rw [isValid_of_dims acc.1 b p hp.1 hp.2.1]
    exact (mem_allCells b p).mp hmem

theorem compact_countValue (v : Nat) (b : Board) (d : Vec) (hd : d ≠ (0, 0)) (hwf : WF b) :
    countValue v (compact b d).1 = countValue v b := by
  unfold compact
  refine (foldl_preserve _ _ _ (fun (bc : Board × Bool) =>
    WF bc.1 ∧ countValue v bc.1 = countValue v b) ⟨hwf, rfl⟩ ?_).2
  intro acc p _ hp
  exact ⟨gridPass_WF acc.1 d hp.1, (gridPass_countValue v acc.1 d hd hp.1).trans hp.2⟩

/-- C1: no tile merges more than once within one move() call.  Merging
happens only in the merge pass: compaction preserves, for every value, the
number of cells holding a tile of that value, so it only moves tiles.  The
merge pass is mirrored by an instrumented walk whose board component
coincides with the real one and whose per-cell counter records the total
number of merges reflected in the cell's value (a successful merge stores
the two participants' counters plus one at the surviving cell); after the
pass every counter is at most 1.  In particular a row [2,2,2,2] moved left
yields [4,4,None,None], not [8,None,None,None]. -/
theorem c1_single_merge (b : Board) (d : Vec) (hd : UnitDir d) (hwf : WF b) :
    (∀ ch : Bool, (gMergePhase b d).1 = (mergePhase b d ch).1)
      ∧ (∀ q : Vec, (gMergePhase b d).2 q ≤ 1)
      ∧ (∀ v : Nat, countValue v (compact b d).1 = countValue v b)
      ∧ (moveNoSpawn row2222 (-1, 0)).1
          = ⟨4, 1, [[some 4], [some 4], [none], [none]]⟩ := by
  have hd0 : d ≠ (0, 0) := by rcases hd with h | h | h | h <;> subst h <;> decide
  exact ⟨fun ch => gMergePhase_fst b d ch,
    gMergePhase_counts b d hd,
    fun v => compact_countValue v b d hd0 hwf,
    by decide⟩

/-- Witness for C1 on a concrete board and direction. -/
theorem c1_single_merge_witness :
    UnitDir (-1, 0) ∧ WF row2222 ∧
      ((∀ ch : Bool,
          (gMergePhase row2222 (-1, 0)).1 = (mergePhase row2222 (-1, 0) ch).1)
        ∧ (∀ q : Vec, (gMergePhase row2222 (-1, 0)).2 q ≤ 1)
        ∧ (∀ v : Nat, countValue v (compact row2222 (-1, 0)).1 = countValue v row2222)
        ∧ (moveNoSpawn row2222 (-1, 0)).1
            = ⟨4, 1, [[some 4], [some 4], [none], [none]]⟩) :=
  ⟨by decide, by decide, c1_single_merge row2222 (-1, 0) (by decide) (by decide)⟩

end Game2048
